import Mathlib

/-!
Verification of the simple-redis RESP codec and command model.

The Rust source (src/resp/encode.rs, src/resp/decode.rs, src/cmd/mod.rs,
src/cmd/map.rs, src/cmd/hmap.rs) is shallowly embedded here:

* byte buffers (`BytesMut`, `&[u8]`, `Vec<u8>`) are `List Nat` of byte values;
* Rust `String` values are their UTF-8 byte sequences (`List Nat`);
* the in-place mutation of the decode buffer is explicit state passing:
  every decoder returns its result together with the buffer it leaves behind;
* `&data[len..]` slicing that can go out of range is modelled by a distinguished
  `panic` outcome, mirroring the Rust panic;
* the recursion of `RespFrame::decode` / `RespFrame::expect_length` through
  nested arrays is made structural with a fuel parameter that bounds the
  nesting depth only; the public wrappers pass `buf.length + 1` fuel, which
  exceeds any reachable nesting depth (each nesting level consumes at least
  three header bytes), so the `nofuel` outcome is unreachable from them.
-/

namespace SimpleRedis

/-- The two-byte CRLF terminator, `b"\r\n"`. -/
def CRLF : List Nat := [13, 10]

/-- `CRLF_LEN` from decode.rs. -/
def CRLF_LEN : Nat := 2

/-- Decimal digits of `n`, least significant first; the first argument is
structural fuel (any fuel `≥ n` gives the true digit list). -/
def digitsAux : Nat → Nat → List Nat
  | 0, _ => []
  | fuel + 1, n => if n = 0 then [] else n % 10 :: digitsAux fuel (n / 10)

/-- Decimal digits of `n`, least significant first. -/
def natDigits (n : Nat) : List Nat := digitsAux n n

/-- The ASCII decimal representation of `n`, as produced by Rust
`format!` of an unsigned integer. -/
def natRepr (n : Nat) : List Nat :=
  if n = 0 then [48] else (natDigits n).reverse.map (fun d => d + 48)

/-- ASCII decimal digit test. -/
def isDigit (b : Nat) : Bool := 48 ≤ b && b ≤ 57

/-- Value of an ASCII digit string, most significant first (digits assumed). -/
def digitsVal (l : List Nat) : Nat := l.foldl (fun a b => a * 10 + (b - 48)) 0

/-- Strip one optional leading `+` (ASCII 43). -/
def stripPlus : List Nat → List Nat
  | [] => []
  | b :: t => if b = 43 then t else b :: t

/-- Strip one optional leading sign; `true` means negative. -/
def stripSign : List Nat → Bool × List Nat
  | [] => (false, [])
  | b :: t => if b = 43 then (false, t) else if b = 45 then (true, t) else (false, b :: t)

/-- Model of `usize::from_str` on the digit grammar: an optional leading `+`
followed by a nonempty digit string.  (A leading `-` is not a digit and so
fails, as in Rust for unsigned targets.  The u64 overflow check of the real
`usize` is not modelled; it is unreachable for any buffer a machine can hold.) -/
def parseNatBytes (bs : List Nat) : Option Nat :=
  let bs₁ := stripPlus bs
  if bs₁ ≠ [] ∧ bs₁.all isDigit then some (digitsVal bs₁) else none

/-- The ASCII representation of an `i64` printed with `{:+}` (sign always
explicit), as in `format!(":{:+}\r\n", self)`. -/
def intReprPlus (i : Int) : List Nat :=
  if 0 ≤ i then 43 :: natRepr i.toNat else 45 :: natRepr (-i).toNat

/-- The ASCII representation of an exponent as printed by Rust `{:e}`:
no sign for a non-negative exponent, `-` for a negative one. -/
def intReprExp (i : Int) : List Nat :=
  if 0 ≤ i then natRepr i.toNat else 45 :: natRepr (-i).toNat

/-- Model of `str::parse::<i64>`: optional sign, nonempty digits, i64 range
check (out-of-range input is a `ParseIntError` in Rust). -/
def parseIntBytes (bs : List Nat) : Option Int :=
  let signed : Bool × List Nat := stripSign bs
  if signed.2 ≠ [] ∧ signed.2.all isDigit then
    let v : Int := if signed.1 then -(digitsVal signed.2 : Int) else (digitsVal signed.2 : Int)
    if -(2 ^ 63) ≤ v ∧ v < 2 ^ 63 then some v else none
  else none

/-- UTF-8 continuation byte test (`0x80..=0xBF`). -/
def contB (c : Nat) : Bool := 128 ≤ c && c ≤ 191

/-- UTF-8 encoding of U+FFFD REPLACEMENT CHARACTER. -/
def REPL : List Nat := [239, 191, 189]

/-- Model of `String::from_utf8_lossy`: valid UTF-8 sequences are kept,
each maximal subpart of an ill-formed subsequence is replaced by U+FFFD. -/
def lossyAux : List Nat → List Nat
  | [] => []
  | b :: bs =>
    if b < 128 then b :: lossyAux bs
    else if b < 194 then REPL ++ lossyAux bs
    else if b ≤ 223 then
      match bs with
      | c :: cs => if contB c then b :: c :: lossyAux cs else REPL ++ lossyAux (c :: cs)
      | [] => REPL
    else if b ≤ 239 then
      match bs with
      | c :: cs =>
        if (if b = 224 then 160 else 128) ≤ c ∧ c ≤ (if b = 237 then 159 else 191) then
          match cs with
          | d :: ds => if contB d then b :: c :: d :: lossyAux ds else REPL ++ lossyAux (d :: ds)
          | [] => REPL
        else REPL ++ lossyAux (c :: cs)
      | [] => REPL
    else if b ≤ 244 then
      match bs with
      | c :: cs =>
        if (if b = 240 then 144 else 128) ≤ c ∧ c ≤ (if b = 244 then 143 else 191) then
          match cs with
          | d :: ds =>
            if contB d then
              match ds with
              | e :: es => if contB e then b :: c :: d :: e :: lossyAux es else REPL ++ lossyAux (e :: es)
              | [] => REPL
            else REPL ++ lossyAux (d :: ds)
          | [] => REPL
        else REPL ++ lossyAux (c :: cs)
      | [] => REPL
    else REPL ++ lossyAux bs

/-- `String::from_utf8_lossy` on a byte buffer, yielding the UTF-8 bytes of
the resulting string. -/
def fromUtf8Lossy (bs : List Nat) : List Nat := lossyAux bs

/-- Model of UTF-8 validity, mirroring the success condition of
`String::from_utf8` (and the shape of `lossyAux`). -/
def validUtf8 : List Nat → Bool
  | [] => true
  | b :: bs =>
    if b < 128 then validUtf8 bs
    else if b < 194 then false
    else if b ≤ 223 then
      match bs with
      | c :: cs => contB c && validUtf8 cs
      | [] => false
    else if b ≤ 239 then
      match bs with
      | c :: cs =>
        if (if b = 224 then 160 else 128) ≤ c ∧ c ≤ (if b = 237 then 159 else 191) then
          match cs with
          | d :: ds => contB d && validUtf8 ds
          | [] => false
        else false
      | [] => false
    else if b ≤ 244 then
      match bs with
      | c :: cs =>
        if (if b = 240 then 144 else 128) ≤ c ∧ c ≤ (if b = 244 then 143 else 191) then
          match cs with
          | d :: ds =>
            if contB d then
              match ds with
              | e :: es => contB e && validUtf8 es
              | [] => false
            else false
          | [] => false
        else false
      | [] => false
    else false

/-- `true` iff the byte list contains an adjacent CR LF pair. -/
def hasCrlf : List Nat → Bool
  | [] => false
  | [_] => false
  | a :: b :: rest => (a = 13 && b = 10) || hasCrlf (b :: rest)

/-- Byte-lexicographic strict order on byte lists: the order of Rust
`String` values (`Ord` on `str` compares UTF-8 bytes). -/
def lexLt : List Nat → List Nat → Bool
  | [], [] => false
  | [], _ :: _ => true
  | _ :: _, [] => false
  | a :: as, b :: bs => if a < b then true else if a = b then lexLt as bs else false

/-- A finite `f64` value, modelled by its shortest decimal representation:
the value is `(-1)^neg * m * 10^(e)`.  Every finite `f64` has a unique
shortest decimal representation (the one Rust `Display`/`LowerExp` print),
so this is a faithful view of the values the claims are about; `wfDub`
states the canonicity (no trailing zero digits in `m`). -/
structure Dub where
  neg : Bool
  m : Nat
  e : Int
  deriving DecidableEq, Repr

/-- Canonical (shortest) decimal representation: a zero mantissa forces a
zero exponent, a nonzero mantissa has no trailing zero digit. -/
def wfDub (d : Dub) : Bool :=
  (d.m ≠ 0 || (d.e == 0)) && (d.m == 0 || d.m % 10 ≠ 0)

/-- Compare `m * 10^e` with `10^p` over the rationals, computed on `Nat`.
This decides the `self.abs() > 1e+8` / `self.abs() < 1e-8` comparisons of
encode.rs exactly: `1e8` is an exact `f64`, and no `f64` lies strictly
between `1e-8` and the `f64` literal `1e-8` (nearest rounding), so the
comparisons of an `f64` with the literals agree with exact rational
comparison of its decimal value with `10^8` and `10^(-8)`. -/
def cmp10 (m : Nat) (e p : Int) : Ordering :=
  if p ≤ e then compare (m * 10 ^ (e - p).toNat) 1 else compare m (10 ^ (p - e).toNat)

/-- The branch condition of `RespEncoder for f64`:
`self.abs() > 1e+8 || self.abs() < 1e-8`. -/
def dubSci (d : Dub) : Bool :=
  (cmp10 d.m d.e 8 == .gt) || (cmp10 d.m d.e (-8) == .lt)

/-- The rational value `m * 10^e`: the absolute value of the `f64` that the
canonical decimal representation `d` denotes. -/
def dubVal (d : Dub) : ℚ := (d.m : ℚ) * (10 : ℚ) ^ d.e

/-- The digit expansion of `m * 10^e` in positional notation, as printed by
Rust `Display` for `f64` (which always prints the shortest representation in
positional notation, never an exponent), without the sign. -/
def posBytes (m : Nat) (e : Int) : List Nat :=
  let s := natRepr m
  if 0 ≤ e then s ++ List.replicate e.toNat 48
  else
    let k := (-e).toNat
    if k < s.length then s.take (s.length - k) ++ 46 :: s.drop (s.length - k)
    else 48 :: 46 :: (List.replicate (k - s.length) 48 ++ s)

/-- Rust `Display` output for the `f64` value `d` (includes a `-` for a
negative value, no sign otherwise). -/
def displayBytes (d : Dub) : List Nat :=
  (if d.neg then [45] else []) ++ posBytes d.m d.e

/-- Rust `{:+e}` output for the `f64` value `d`: forced sign, first digit,
optional fractional digits, `e`, exponent. -/
def expBytes (d : Dub) : List Nat :=
  let ds := natRepr d.m
  let e1 : Int := d.e + (ds.length - 1 : Nat)
  (if d.neg then 45 else 43) ::
    ds.take 1 ++ (if ds.length ≤ 1 then [] else 46 :: ds.drop 1) ++ 101 :: intReprExp e1

/-- The payload printed by the fixed-point branch of `RespEncoder for f64`:
`format!("{}{}", sign, self)` with `sign = "+"` when `is_sign_positive`. -/
def fixedBytes (d : Dub) : List Nat :=
  (if d.neg then [] else [43]) ++ displayBytes d

/-- Normalisation used by the model of `str::parse::<f64>`: value
`(-1)^neg * M * 10^e0` brought to canonical (trailing-zero-free) form. -/
def normDub (neg : Bool) (M : Nat) (e0 : Int) : Dub :=
  if M = 0 then ⟨neg, 0, 0⟩
  else
    ⟨neg,
     Nat.ofDigits 10 ((natDigits M).drop ((natDigits M).takeWhile (fun d => d == 0)).length),
     e0 + ((natDigits M).takeWhile (fun d => d == 0)).length⟩

/-- Exponent-suffix part of the `f64` grammar: empty, or `e`/`E`, optional
sign, nonempty digits, nothing after. -/
def parseExpSuffix (bs : List Nat) : Option Int :=
  match bs with
  | [] => some 0
  | c :: r =>
    if c = 101 ∨ c = 69 then
      let signed : Bool × List Nat := stripSign r
      if signed.2 ≠ [] ∧ signed.2.all isDigit then
        some (if signed.1 then -(digitsVal signed.2 : Int) else (digitsVal signed.2 : Int))
      else none
    else none

/-- Model of `str::parse::<f64>` on the decimal grammar
`[sign] digits ["." digits] [("e"|"E") [sign] digits]` (at least one digit
among the integer and fractional parts).  The special forms `inf`,
`infinity`, `nan` accepted by Rust are not modelled; no claim involves them.
The result is the exactly-represented decimal, normalised; this agrees with
Rust when the input is the shortest representation of an `f64`, which is the
case for every string our encoder produces. -/
def parseF64Bytes (bs : List Nat) : Option Dub :=
  let signed : Bool × List Nat := stripSign bs
  let ip := signed.2.takeWhile isDigit
  let r1 := signed.2.dropWhile isDigit
  match r1 with
  | 46 :: r2 =>
    let fp := r2.takeWhile isDigit
    let r3 := r2.dropWhile isDigit
    if ip = [] ∧ fp = [] then none
    else
      match parseExpSuffix r3 with
      | some ex => some (normDub signed.1 (digitsVal (ip ++ fp)) (ex - (fp.length : Int)))
      | none => none
  | _ =>
    if ip = [] then none
    else
      match parseExpSuffix r1 with
      | some ex => some (normDub signed.1 (digitsVal ip) ex)
      | none => none

/-- The `RespFrame` enum of resp/mod.rs.  Strings are UTF-8 byte lists,
`RespMap` is its `BTreeMap<String, RespFrame>` viewed as the association
list of its entries in ascending key order (the order the map iterates in),
`f64` is the shortest-decimal view `Dub`. -/
inductive Frame where
  | SimpleString (s : List Nat)
  | Error (s : List Nat)
  | Integer (i : Int)
  | BulkString (b : List Nat)
  | Array (xs : List Frame)
  | Null
  | NullArray
  | NullBulkString
  | Boolean (b : Bool)
  | Double (d : Dub)
  | Map (entries : List (List Nat × Frame))
  | Set (xs : List Frame)
  deriving Repr

/-- Model of `BTreeMap::insert` on the sorted-entry-list view: place the
entry at its key position, replacing an entry with an equal key. -/
def btInsert (k : List Nat) (v : Frame) : List (List Nat × Frame) → List (List Nat × Frame)
  | [] => [(k, v)]
  | (k1, v1) :: rest =>
    if lexLt k k1 then (k, v) :: (k1, v1) :: rest
    else if k = k1 then (k, v) :: rest
    else (k1, v1) :: btInsert k v rest

mutual

/-- `RespEncoder::encode` from resp/encode.rs, one branch per impl. -/
def frameEncode : Frame → List Nat
  | .SimpleString s => 43 :: s ++ CRLF
  | .Error s => 45 :: s ++ CRLF
  | .Integer i => 58 :: intReprPlus i ++ CRLF
  | .BulkString b => 36 :: natRepr b.length ++ CRLF ++ b ++ CRLF
  | .Array xs => 42 :: natRepr xs.length ++ CRLF ++ encodeList xs
  | .Null => [95, 13, 10]
  | .NullArray => [42, 45, 49, 13, 10]
  | .NullBulkString => [36, 45, 49, 13, 10]
  | .Boolean b => if b then [35, 116, 13, 10] else [35, 102, 13, 10]
  | .Double d => 44 :: (if dubSci d then expBytes d else fixedBytes d) ++ CRLF
  | .Map es => 37 :: natRepr es.length ++ CRLF ++ encodeEntries es
  | .Set xs => 126 :: natRepr xs.length ++ CRLF ++ encodeList xs

/-- Concatenated encodings of the elements of an array or set. -/
def encodeList : List Frame → List Nat
  | [] => []
  | f :: fs => frameEncode f ++ encodeList fs

/-- Concatenated encodings of map entries: each key is encoded as a
`SimpleString` frame, followed by the value's encoding. -/
def encodeEntries : List (List Nat × Frame) → List Nat
  | [] => []
  | (k, v) :: es => 43 :: k ++ CRLF ++ frameEncode v ++ encodeEntries es

end

mutual

/-- Nesting depth of a frame (composites add one level). -/
def frameDepth : Frame → Nat
  | .Array xs => depthList xs + 1
  | .Map es => depthEntries es + 1
  | .Set xs => depthList xs + 1
  | _ => 1

def depthList : List Frame → Nat
  | [] => 0
  | f :: fs => max (frameDepth f) (depthList fs)

def depthEntries : List (List Nat × Frame) → Nat
  | [] => 0
  | (_, v) :: es => max (frameDepth v) (depthEntries es)

end

/-- Keys in strictly ascending byte-lexicographic order. -/
def keysAscending : List (List Nat) → Bool
  | [] => true
  | [_] => true
  | a :: b :: rest => lexLt a b && keysAscending (b :: rest)

mutual

/-- Data-model well-formedness from spec §3, the invariants every frame a
Rust program can hold satisfies: simple strings and errors are UTF-8 and
contain no CRLF pair, integers fit in `i64`, doubles are in canonical
shortest-decimal form, map keys are UTF-8 CRLF-free strings in strictly
ascending order (the `BTreeMap` shape). -/
def wfFrame : Frame → Bool
  | .SimpleString s => !hasCrlf s && validUtf8 s
  | .Error s => !hasCrlf s && validUtf8 s
  | .Integer i => decide (-(2 ^ 63) ≤ i ∧ i < 2 ^ 63)
  | .BulkString _ => true
  | .Array xs => wfList xs
  | .Double d => wfDub d
  | .Map es => wfEntries es && keysAscending (es.map (fun e => e.1))
  | .Set xs => wfList xs
  | _ => true

def wfList : List Frame → Bool
  | [] => true
  | f :: fs => wfFrame f && wfList fs

def wfEntries : List (List Nat × Frame) → Bool
  | [] => true
  | (k, v) :: es => !hasCrlf k && validUtf8 k && wfFrame v && wfEntries es

end

mutual

/-- `innerOk f`: `f` may appear as an element of a composite frame without
tripping the measurement pass: it is not a `NullArray`/`NullBulkString`
literal (whose encodings `*-1\r\n` / `$-1\r\n` make the nested
`parse_length` fail), recursively. -/
def innerOk : Frame → Bool
  | .NullArray => false
  | .NullBulkString => false
  | .Array xs => innerOkList xs
  | .Map es => innerOkEntries es
  | .Set xs => innerOkList xs
  | _ => true

def innerOkList : List Frame → Bool
  | [] => true
  | f :: fs => innerOk f && innerOkList fs

def innerOkEntries : List (List Nat × Frame) → Bool
  | [] => true
  | (_, v) :: es => innerOk v && innerOkEntries es

end

mutual

/-- No `Array []` subframe anywhere (an empty array's four-byte encoding at
the very end of the buffer makes the `*-1\r\n` literal check in
`RespFrame::decode` report `NotComplete`). -/
def emptyArrFree : Frame → Bool
  | .Array [] => false
  | .Array xs => emptyArrFreeList xs
  | .Map es => emptyArrFreeEntries es
  | .Set xs => emptyArrFreeList xs
  | _ => true

def emptyArrFreeList : List Frame → Bool
  | [] => true
  | f :: fs => emptyArrFree f && emptyArrFreeList fs

def emptyArrFreeEntries : List (List Nat × Frame) → Bool
  | [] => true
  | (_, v) :: es => emptyArrFree v && emptyArrFreeEntries es

end

/-- A frame the top-level `RespFrame::decode` dispatch handles exactly: the
null literals `NullArray`/`NullBulkString` are decodable at top level (the
literal probe succeeds before any measurement), while every subframe of a
composite must satisfy `innerOk`. -/
def decodableTop : Frame → Bool
  | .Array xs => innerOkList xs
  | .Map es => innerOkEntries es
  | .Set xs => innerOkList xs
  | _ => true

/-- The `RespError` enum of resp/mod.rs (the `String`/`isize` payloads of the
variants, which are only diagnostic messages, are dropped). -/
inductive RespError where
  | InvalidFrame
  | InvalidFrameType
  | InvalidFrameLength
  | NotComplete
  | ParseIntError
  | ParseDoubleError
  deriving DecidableEq, Repr

/-- Outcome of a decoding step: a value, a `RespError`, a Rust panic (an
out-of-range slice in `calc_total_length`), or fuel exhaustion of the model
(unreachable from the public wrappers). -/
inductive DRes (α : Type) where
  | ok (a : α)
  | err (e : RespError)
  | panic
  | nofuel
  deriving Repr

/-- `find_crlf`: position of the `nth` CR LF pair, scanning indices
`0 .. buf.len() - 1` (callers guarantee a nonempty buffer). -/
def findCrlfAux : List Nat → Nat → Nat → Nat → Option Nat
  | b :: c :: rest, i, count, nth =>
    if b = 13 ∧ c = 10 then
      if count + 1 = nth then some i else findCrlfAux (c :: rest) (i + 1) (count + 1) nth
    else findCrlfAux (c :: rest) (i + 1) count nth
  | _, _, _, _ => none

/-- `find_crlf(buf, nth)` from decode.rs. -/
def find_crlf (buf : List Nat) (nth : Nat) : Option Nat := findCrlfAux buf 0 0 nth

/-- `extract_simple_frame_data(buf, prefix)` from decode.rs: length guard,
prefix check, then search for the first CRLF. -/
def extract_simple_frame_data (buf pfx : List Nat) : DRes Nat :=
  if buf.length < 3 then .err .NotComplete
  else if ¬ pfx.isPrefixOf buf then .err .InvalidFrameType
  else
    match find_crlf buf 1 with
    | some e => .ok e
    | none => .err .NotComplete

/-- `parse_length(buf, prefix)` from decode.rs: returns the CRLF position
and the parsed element/byte count (`String::from_utf8_lossy` then
`str::parse::<usize>`). -/
def parse_length (buf pfx : List Nat) : DRes (Nat × Nat) :=
  match extract_simple_frame_data buf pfx with
  | .ok e =>
    match parseNatBytes (fromUtf8Lossy ((buf.take e).drop pfx.length)) with
    | some n => .ok (e, n)
    | none => .err .ParseIntError
  | .err er => .err er
  | .panic => .panic
  | .nofuel => .nofuel

/-- `extend_fixed_data(buf, expect, ..)` from decode.rs: on success the
buffer is advanced past the literal; on failure it is untouched. -/
def extend_fixed_data (buf expect : List Nat) : DRes Unit × List Nat :=
  if buf.length < expect.length then (.err .NotComplete, buf)
  else if ¬ expect.isPrefixOf buf then (.err .InvalidFrameType, buf)
  else (.ok (), buf.drop expect.length)

/-- `SimpleString::expect_length` (also the shape of the `SimpleError`,
`i64` and `f64` impls, which differ only in the prefix byte). -/
def simpleExpectLen (pfx buf : List Nat) : DRes Nat :=
  match extract_simple_frame_data buf pfx with
  | .ok e => .ok (e + CRLF_LEN)
  | .err er => .err er
  | .panic => .panic
  | .nofuel => .nofuel

/-- `BulkString::expect_length`: header plus declared byte count plus CRLF. -/
def bulkExpectLen (buf : List Nat) : DRes Nat :=
  match parse_length buf [36] with
  | .ok (e, len) => .ok (e + CRLF_LEN + len + CRLF_LEN)
  | .err er => .err er
  | .panic => .panic
  | .nofuel => .nofuel

/-- The `"*" | "~"` loop of `calc_total_length`: `len` times, measure one
element with `el` and advance the measuring slice by that many bytes.  The
Rust `data = &data[len..]` panics when the measured length exceeds the
remaining slice, modelled by `.panic`. -/
def calcListTotal (el : List Nat → DRes Nat) : Nat → List Nat → Nat → DRes Nat
  | 0, _, total => .ok total
  | k + 1, data, total =>
    match el data with
    | .ok len =>
      if len ≤ data.length then calcListTotal el k (data.drop len) (total + len)
      else .panic
    | .err er => .err er
    | .panic => .panic
    | .nofuel => .nofuel

/-- The `"%"` loop of `calc_total_length`: per entry, a `SimpleString` key
measurement followed by a frame measurement, with the same panicking
slice advance. -/
def calcMapTotal (el : List Nat → DRes Nat) : Nat → List Nat → Nat → DRes Nat
  | 0, _, total => .ok total
  | k + 1, data, total =>
    match simpleExpectLen [43] data with
    | .ok klen =>
      if klen ≤ data.length then
        match el (data.drop klen) with
        | .ok vlen =>
          if vlen ≤ (data.drop klen).length then
            calcMapTotal el k ((data.drop klen).drop vlen) (total + klen + vlen)
          else .panic
        | .err er => .err er
        | .panic => .panic
        | .nofuel => .nofuel
      else .panic
    | .err er => .err er
    | .panic => .panic
    | .nofuel => .nofuel

/-- `calc_total_length(buf, end, len, prefix)` from decode.rs, with the
element measurer `el` (`RespFrame::expect_length` at the caller's fuel)
passed explicitly. -/
def calc_total_length (el : List Nat → DRes Nat) (buf : List Nat) (e len : Nat)
    (pfx : List Nat) : DRes Nat :=
  if pfx = [42] ∨ pfx = [126] then calcListTotal el len (buf.drop (e + CRLF_LEN)) (e + CRLF_LEN)
  else if pfx = [37] then calcMapTotal el len (buf.drop (e + CRLF_LEN)) (e + CRLF_LEN)
  else .ok (len + CRLF_LEN)

/-- `RespArray::expect_length` / `RespSet::expect_length` /
`RespMap::expect_length`: parse the header, then measure the whole body. -/
def compositeExpectLen (el : List Nat → DRes Nat) (pfx buf : List Nat) : DRes Nat :=
  match parse_length buf pfx with
  | .ok (e, len) => calc_total_length el buf e len pfx
  | .err er => .err er
  | .panic => .panic
  | .nofuel => .nofuel

/-- `RespFrame::expect_length`, fuel-indexed (the fuel bounds the nesting
depth of the measurement recursion; every branch matches the dispatch of
decode.rs, including the constant lengths for `_` and `#` and the
`NotComplete` catch-all). -/
def frameExpectLen : Nat → List Nat → DRes Nat
  | 0, _ => .nofuel
  | fuel + 1, buf =>
    match buf with
    | [] => .err .NotComplete
    | b :: _ =>
      if b = 43 then simpleExpectLen [43] buf
      else if b = 45 then simpleExpectLen [45] buf
      else if b = 58 then simpleExpectLen [58] buf
      else if b = 36 then bulkExpectLen buf
      else if b = 42 then compositeExpectLen (frameExpectLen fuel) [42] buf
      else if b = 37 then compositeExpectLen (frameExpectLen fuel) [37] buf
      else if b = 126 then compositeExpectLen (frameExpectLen fuel) [126] buf
      else if b = 95 then .ok 3
      else if b = 35 then .ok 4
      else if b = 44 then simpleExpectLen [44] buf
      else .err .NotComplete

/-- `SimpleString::decode`: locate the terminator, split the frame off the
buffer, lossily decode the payload between prefix and CRLF. -/
def simpleStringDecode (pfx buf : List Nat) : DRes (List Nat) × List Nat :=
  match extract_simple_frame_data buf pfx with
  | .ok e => (.ok (fromUtf8Lossy ((buf.take e).drop 1)), buf.drop (e + CRLF_LEN))
  | .err er => (.err er, buf)
  | .panic => (.panic, buf)
  | .nofuel => (.nofuel, buf)

/-- `i64::decode`: the frame is split off the buffer before the payload is
parsed, so a parse failure still consumes the frame's bytes. -/
def i64Decode (buf : List Nat) : DRes Int × List Nat :=
  match extract_simple_frame_data buf [58] with
  | .ok e =>
    match parseIntBytes (fromUtf8Lossy ((buf.take e).drop 1)) with
    | some i => (.ok i, buf.drop (e + CRLF_LEN))
    | none => (.err .ParseIntError, buf.drop (e + CRLF_LEN))
  | .err er => (.err er, buf)
  | .panic => (.panic, buf)
  | .nofuel => (.nofuel, buf)

/-- `f64::decode`, same split-then-parse shape as `i64::decode`. -/
def f64Decode (buf : List Nat) : DRes Dub × List Nat :=
  match extract_simple_frame_data buf [44] with
  | .ok e =>
    match parseF64Bytes (fromUtf8Lossy ((buf.take e).drop 1)) with
    | some d => (.ok d, buf.drop (e + CRLF_LEN))
    | none => (.err .ParseDoubleError, buf.drop (e + CRLF_LEN))
  | .err er => (.err er, buf)
  | .panic => (.panic, buf)
  | .nofuel => (.nofuel, buf)

/-- `bool::decode`: try the `#t\r\n` literal; on `NotComplete` stop, on any
other failure try `#f\r\n`. -/
def boolDecode (buf : List Nat) : DRes Bool × List Nat :=
  match extend_fixed_data buf [35, 116, 13, 10] with
  | (.ok _, b1) => (.ok true, b1)
  | (.err .NotComplete, b1) => (.err .NotComplete, b1)
  | (.err _, _) =>
    match extend_fixed_data buf [35, 102, 13, 10] with
    | (.ok _, b1) => (.ok false, b1)
    | (r, b1) => ((match r with
        | .ok _ => .panic
        | .err er => .err er
        | .panic => .panic
        | .nofuel => .nofuel), b1)
  | (r, b1) => ((match r with
      | .ok _ => .panic
      | .err er => .err er
      | .panic => .panic
      | .nofuel => .nofuel), b1)

/-- `BulkString::decode`: parse the length header, require
`len + CRLF_LEN` bytes after it, then take exactly `len` payload bytes and
skip two more — without inspecting those two bytes. -/
def bulkStringDecode (buf : List Nat) : DRes (List Nat) × List Nat :=
  match parse_length buf [36] with
  | .ok (e, len) =>
    if (buf.drop (e + CRLF_LEN)).length < len + CRLF_LEN then (.err .NotComplete, buf)
    else
      (.ok ((buf.drop (e + CRLF_LEN)).take len), (buf.drop (e + CRLF_LEN)).drop (len + CRLF_LEN))
  | .err er => (.err er, buf)
  | .panic => (.panic, buf)
  | .nofuel => (.nofuel, buf)

/-- The element loop of `RespArray::decode` / `RespSet::decode`: decode
`count` frames in sequence with `dec`, threading the buffer. -/
def decodeElems (dec : List Nat → DRes Frame × List Nat) :
    Nat → List Nat → DRes (List Frame) × List Nat
  | 0, buf => (.ok [], buf)
  | k + 1, buf =>
    match dec buf with
    | (.ok f, b1) =>
      match decodeElems dec k b1 with
      | (.ok fs, b2) => (.ok (f :: fs), b2)
      | (.err er, b2) => (.err er, b2)
      | (.panic, b2) => (.panic, b2)
      | (.nofuel, b2) => (.nofuel, b2)
    | (.err er, b1) => (.err er, b1)
    | (.panic, b1) => (.panic, b1)
    | (.nofuel, b1) => (.nofuel, b1)

/-- The entry loop of `RespMap::decode`: decode a `SimpleString` key and a
frame value `count` times, inserting each pair into the accumulated
`BTreeMap` (`btInsert`). -/
def decodeMapEntries (dec : List Nat → DRes Frame × List Nat) :
    Nat → List (List Nat × Frame) → List Nat → DRes (List (List Nat × Frame)) × List Nat
  | 0, acc, buf => (.ok acc, buf)
  | k + 1, acc, buf =>
    match simpleStringDecode [43] buf with
    | (.ok key, b1) =>
      match dec b1 with
      | (.ok v, b2) => decodeMapEntries dec k (btInsert key v acc) b2
      | (.err er, b2) => (.err er, b2)
      | (.panic, b2) => (.panic, b2)
      | (.nofuel, b2) => (.nofuel, b2)
    | (.err er, b1) => (.err er, b1)
    | (.panic, b1) => (.panic, b1)
    | (.nofuel, b1) => (.nofuel, b1)

/-- `RespArray::decode` (shared by `RespSet::decode` via `mk`): header,
whole-frame measurement, completeness check, then the consuming pass. -/
def arrayDecode (dec : List Nat → DRes Frame × List Nat)
    (el : List Nat → DRes Nat) (pfx : List Nat) (mk : List Frame → Frame)
    (buf : List Nat) : DRes Frame × List Nat :=
  match parse_length buf pfx with
  | .ok (e, len) =>
    match calc_total_length el buf e len pfx with
    | .ok total =>
      if buf.length < total then (.err .NotComplete, buf)
      else
        match decodeElems dec len (buf.drop (e + CRLF_LEN)) with
        | (.ok fs, b1) => (.ok (mk fs), b1)
        | (.err er, b1) => (.err er, b1)
        | (.panic, b1) => (.panic, b1)
        | (.nofuel, b1) => (.nofuel, b1)
    | .err er => (.err er, buf)
    | .panic => (.panic, buf)
    | .nofuel => (.nofuel, buf)
  | .err er => (.err er, buf)
  | .panic => (.panic, buf)
  | .nofuel => (.nofuel, buf)

/-- `RespMap::decode`: header, measurement, completeness check, then the
consuming entry loop starting from the empty map. -/
def mapDecode (dec : List Nat → DRes Frame × List Nat)
    (el : List Nat → DRes Nat) (buf : List Nat) : DRes Frame × List Nat :=
  match parse_length buf [37] with
  | .ok (e, len) =>
    match calc_total_length el buf e len [37] with
    | .ok total =>
      if buf.length < total then (.err .NotComplete, buf)
      else
        match decodeMapEntries dec len [] (buf.drop (e + CRLF_LEN)) with
        | (.ok es, b1) => (.ok (.Map es), b1)
        | (.err er, b1) => (.err er, b1)
        | (.panic, b1) => (.panic, b1)
        | (.nofuel, b1) => (.nofuel, b1)
    | .err er => (.err er, buf)
    | .panic => (.panic, buf)
    | .nofuel => (.nofuel, buf)
  | .err er => (.err er, buf)
  | .panic => (.panic, buf)
  | .nofuel => (.nofuel, buf)

/-- `RespDecoder::decode for RespFrame`: dispatch on the first byte,
including the two-step null-literal precedence for `$` and `*` (note the
asymmetry faithful to the source: for `$`, `NotComplete` from the literal
attempt falls through to `BulkString::decode`; for `*` it is returned). -/
def frameDecode : Nat → List Nat → DRes Frame × List Nat
  | 0, buf => (.nofuel, buf)
  | fuel + 1, buf =>
    match buf with
    | [] => (.err .NotComplete, buf)
    | b :: _ =>
      if b = 43 then
        match simpleStringDecode [43] buf with
        | (.ok s, b1) => (.ok (.SimpleString s), b1)
        | (.err er, b1) => (.err er, b1)
        | (.panic, b1) => (.panic, b1)
        | (.nofuel, b1) => (.nofuel, b1)
      else if b = 45 then
        match simpleStringDecode [45] buf with
        | (.ok s, b1) => (.ok (.Error s), b1)
        | (.err er, b1) => (.err er, b1)
        | (.panic, b1) => (.panic, b1)
        | (.nofuel, b1) => (.nofuel, b1)
      else if b = 58 then
        match i64Decode buf with
        | (.ok i, b1) => (.ok (.Integer i), b1)
        | (.err er, b1) => (.err er, b1)
        | (.panic, b1) => (.panic, b1)
        | (.nofuel, b1) => (.nofuel, b1)
      else if b = 36 then
        match extend_fixed_data buf [36, 45, 49, 13, 10] with
        | (.ok _, b1) => (.ok .NullBulkString, b1)
        | (.err _, _) =>
          match bulkStringDecode buf with
          | (.ok s, b1) => (.ok (.BulkString s), b1)
          | (.err er, b1) => (.err er, b1)
          | (.panic, b1) => (.panic, b1)
          | (.nofuel, b1) => (.nofuel, b1)
        | (.panic, b1) => (.panic, b1)
        | (.nofuel, b1) => (.nofuel, b1)
      else if b = 42 then
        match extend_fixed_data buf [42, 45, 49, 13, 10] with
        | (.ok _, b1) => (.ok .NullArray, b1)
        | (.err .NotComplete, b1) => (.err .NotComplete, b1)
        | (.err _, _) => arrayDecode (frameDecode fuel) (frameExpectLen fuel) [42] .Array buf
        | (.panic, b1) => (.panic, b1)
        | (.nofuel, b1) => (.nofuel, b1)
      else if b = 37 then mapDecode (frameDecode fuel) (frameExpectLen fuel) buf
      else if b = 126 then arrayDecode (frameDecode fuel) (frameExpectLen fuel) [126] .Set buf
      else if b = 95 then
        match extend_fixed_data buf [95, 13, 10] with
        | (.ok _, b1) => (.ok .Null, b1)
        | (.err er, b1) => (.err er, b1)
        | (.panic, b1) => (.panic, b1)
        | (.nofuel, b1) => (.nofuel, b1)
      else if b = 35 then
        match boolDecode buf with
        | (.ok v, b1) => (.ok (.Boolean v), b1)
        | (.err er, b1) => (.err er, b1)
        | (.panic, b1) => (.panic, b1)
        | (.nofuel, b1) => (.nofuel, b1)
      else if b = 44 then
        match f64Decode buf with
        | (.ok d, b1) => (.ok (.Double d), b1)
        | (.err er, b1) => (.err er, b1)
        | (.panic, b1) => (.panic, b1)
        | (.nofuel, b1) => (.nofuel, b1)
      else (.err .InvalidFrameType, buf)

/-- `RespFrame::decode` on a buffer: the fuel `buf.length + 1` strictly
exceeds any reachable nesting depth, so the model's `nofuel` outcome never
occurs here. -/
def decode (buf : List Nat) : DRes Frame × List Nat := frameDecode (buf.length + 1) buf

/-- `RespFrame::expect_length` on a buffer. -/
def expectLength (buf : List Nat) : DRes Nat := frameExpectLen (buf.length + 1) buf

/-! ## Command model (src/cmd) -/

/-- `CommandError` from cmd/mod.rs (diagnostic payloads dropped). -/
inductive CommandError where
  | InvalidCommand
  | InvalidArgument
  | RespErr (e : RespError)
  | Utf8Error
  deriving DecidableEq, Repr

/-- The `Command` enum of cmd/mod.rs; keys and fields are the UTF-8 bytes
of the Rust `String`s. -/
inductive Command where
  | Get (key : List Nat)
  | Set (key : List Nat) (value : Frame)
  | HGet (key field : List Nat)
  | HSet (key field : List Nat) (value : Frame)
  | HGetAll (key : List Nat)
  | Unrecognized
  deriving Repr

/-- ASCII bytes of `"get"`. -/
def GETB : List Nat := [103, 101, 116]
/-- ASCII bytes of `"set"`. -/
def SETB : List Nat := [115, 101, 116]
/-- ASCII bytes of `"hget"`. -/
def HGETB : List Nat := [104, 103, 101, 116]
/-- ASCII bytes of `"hset"`. -/
def HSETB : List Nat := [104, 115, 101, 116]
/-- ASCII bytes of `"hgetall"`. -/
def HGETALLB : List Nat := [104, 103, 101, 116, 97, 108, 108]
/-- The `RESP_OK` constant: `SimpleString::new("OK")`. -/
def okFrame : Frame := .SimpleString [79, 75]

/-- `u8::to_ascii_lowercase` on every byte. -/
def toAsciiLower (bs : List Nat) : List Nat :=
  bs.map (fun b => if 65 ≤ b ∧ b ≤ 90 then b + 32 else b)

/-- The name-checking loop of `validate_command`: for each expected name,
the frame at that position must be a `BulkString` whose ASCII-lowercased
bytes equal the name. -/
def validateNames : List (List Nat) → List Frame → Except CommandError Unit
  | [], _ => .ok ()
  | n :: ns, .BulkString cmd :: fs =>
    if toAsciiLower cmd = n then validateNames ns fs else .error .InvalidCommand
  | _ :: _, _ :: _ => .error .InvalidCommand
  | _ :: _, [] => .error .InvalidCommand

/-- `validate_command(value, names, n_args)` from cmd/mod.rs: exact element
count `n_args + names.len()`, then the name check per position. -/
def validate_command (value : List Frame) (names : List (List Nat)) (nArgs : Nat) :
    Except CommandError Unit :=
  if value.length ≠ nArgs + names.length then .error .InvalidArgument
  else validateNames names value

/-- `extract_args(value, start)`: skip the leading `start` frames. -/
def extract_args (value : List Frame) (start : Nat) : List Frame := value.drop start

/-- `TryFrom<RespArray> for Get` (cmd/map.rs): validate, then require a
UTF-8 `BulkString` key. -/
def getTryFrom (value : List Frame) : Except CommandError Command :=
  match validate_command value [GETB] 1 with
  | .error e => .error e
  | .ok _ =>
    match extract_args value 1 with
    | .BulkString s :: _ =>
      if validUtf8 s then .ok (.Get s) else .error .Utf8Error
    | _ => .error .InvalidArgument

/-- `TryFrom<RespArray> for Set` (cmd/map.rs): a UTF-8 `BulkString` key and
an arbitrary value frame. -/
def setTryFrom (value : List Frame) : Except CommandError Command :=
  match validate_command value [SETB] 2 with
  | .error e => .error e
  | .ok _ =>
    match extract_args value 1 with
    | .BulkString key :: v :: _ =>
      if validUtf8 key then .ok (.Set key v) else .error .Utf8Error
    | _ => .error .InvalidArgument

/-- `TryFrom<RespArray> for HGet` (cmd/hmap.rs). -/
def hgetTryFrom (value : List Frame) : Except CommandError Command :=
  match validate_command value [HGETB] 2 with
  | .error e => .error e
  | .ok _ =>
    match extract_args value 1 with
    | .BulkString key :: .BulkString field :: _ =>
      if validUtf8 key then
        if validUtf8 field then .ok (.HGet key field) else .error .Utf8Error
      else .error .Utf8Error
    | _ => .error .InvalidArgument

/-- `TryFrom<RespArray> for HSet` (cmd/hmap.rs). -/
def hsetTryFrom (value : List Frame) : Except CommandError Command :=
  match validate_command value [HSETB] 3 with
  | .error e => .error e
  | .ok _ =>
    match extract_args value 1 with
    | .BulkString key :: .BulkString field :: v :: _ =>
      if validUtf8 key then
        if validUtf8 field then .ok (.HSet key field v) else .error .Utf8Error
      else .error .Utf8Error
    | _ => .error .InvalidArgument

/-- `TryFrom<RespArray> for HGetAll` (cmd/hmap.rs). -/
def hgetallTryFrom (value : List Frame) : Except CommandError Command :=
  match validate_command value [HGETALLB] 1 with
  | .error e => .error e
  | .ok _ =>
    match extract_args value 1 with
    | .BulkString key :: _ =>
      if validUtf8 key then .ok (.HGetAll key) else .error .Utf8Error
    | _ => .error .InvalidArgument

/-- `TryFrom<RespArray> for Command` (cmd/mod.rs): the first element must be
a `BulkString`; its bytes are matched case-sensitively against the five
known lowercase names, anything else is `Unrecognized` (not an error). -/
def commandTryFromArray (value : List Frame) : Except CommandError Command :=
  match value.head? with
  | some (.BulkString cmd) =>
    if cmd = GETB then getTryFrom value
    else if cmd = SETB then setTryFrom value
    else if cmd = HGETB then hgetTryFrom value
    else if cmd = HSETB then hsetTryFrom value
    else if cmd = HGETALLB then hgetallTryFrom value
    else .ok .Unrecognized
  | _ => .error .InvalidCommand

/-- `TryFrom<RespFrame> for Command`: only arrays are commands. -/
def commandTryFromFrame : Frame → Except CommandError Command
  | .Array xs => commandTryFromArray xs
  | _ => .error .InvalidCommand

/-! ## Backend store

Modelled from the spec: the `Backend` type itself (its file is not under
`src/`; only `main.rs` and the executors use it).  Spec §4.5 gives its
contract: two independent namespaces keyed by string — a flat `key → Frame`
mapping (`get`/`set`) and a `key → (field → Frame)` mapping
(`hget`/`hset`/`hgetall`), with `hgetall` returning the whole field table of
a key when present.  Both namespaces are association lists with unique keys
(keys are the UTF-8 bytes of Rust `String`s). -/

/-- Modelled from the spec: the backend store of §4.5 (two namespaces). -/
structure Backend where
  map : List (List Nat × Frame)
  hmap : List (List Nat × List (List Nat × Frame))

/-- Association-list update: replace the binding of `k`, or append it. -/
def alistSet (k : List Nat) (v : α) : List (List Nat × α) → List (List Nat × α)
  | [] => [(k, v)]
  | (k1, v1) :: rest => if k1 = k then (k, v) :: rest else (k1, v1) :: alistSet k v rest

/-- Association-list lookup. -/
def alistGet (k : List Nat) : List (List Nat × α) → Option α
  | [] => none
  | (k1, v1) :: rest => if k1 = k then some v1 else alistGet k rest

/-- Modelled from the spec: `Backend::get`. -/
def Backend.get (b : Backend) (k : List Nat) : Option Frame := alistGet k b.map

/-- Modelled from the spec: `Backend::set` (unconditional overwrite). -/
def Backend.set (b : Backend) (k : List Nat) (v : Frame) : Backend :=
  { b with map := alistSet k v b.map }

/-- Modelled from the spec: `Backend::hget`. -/
def Backend.hget (b : Backend) (k f : List Nat) : Option Frame :=
  match alistGet k b.hmap with
  | some tbl => alistGet f tbl
  | none => none

/-- Modelled from the spec: `Backend::hset` (creates the field table when
absent, then sets the field). -/
def Backend.hset (b : Backend) (k f : List Nat) (v : Frame) : Backend :=
  match alistGet k b.hmap with
  | some tbl => { b with hmap := alistSet k (alistSet f v tbl) b.hmap }
  | none => { b with hmap := alistSet k [(f, v)] b.hmap }

/-- Modelled from the spec: `Backend::hgetall` — the key's whole field
table, if the key exists. -/
def Backend.hgetall (b : Backend) (k : List Nat) : Option (List (List Nat × Frame)) :=
  alistGet k b.hmap

/-- `CommandExecutor::execute` for every `Command` variant (cmd/map.rs and
cmd/hmap.rs); the state-passing pair returns the response frame and the
backend after the command.  `HGetAll` rebuilds a `RespMap` by inserting
every entry of the field table (the iteration of the concurrent map is
modelled by the stored order; the result is order-independent because
`btInsert` sorts), and returns an empty `RespArray` when the key is
missing. -/
def execute : Command → Backend → Frame × Backend
  | .Get key, b =>
    ((match b.get key with
      | some v => v
      | none => .Null), b)
  | .Set key v, b => (okFrame, b.set key v)
  | .HGet key field, b =>
    ((match b.hget key field with
      | some v => v
      | none => .Null), b)
  | .HSet key field v, b => (okFrame, b.hset key field v)
  | .HGetAll key, b =>
    ((match b.hgetall key with
      | some tbl => .Map (tbl.foldl (fun acc kv => btInsert kv.1 kv.2 acc) [])
      | none => .Array []), b)
  | .Unrecognized, b => (okFrame, b)

/-! ## Basic lemmas: digits, representations, parsing -/

theorem digitsAux_eq_digits : ∀ fuel n, n ≤ fuel → digitsAux fuel n = Nat.digits 10 n := by
  intro fuel
  induction fuel with
  | zero => intro n hn; interval_cases n; simp [digitsAux]
  | succ fuel ih =>
    intro n hn
    by_cases h0 : n = 0
    · subst h0; simp [digitsAux]
    · rw [digitsAux, if_neg h0, Nat.digits_def' (by norm_num) (Nat.pos_of_ne_zero h0),
        ih (n / 10) (by omega)]

theorem natDigits_eq (n : Nat) : natDigits n = Nat.digits 10 n :=
  digitsAux_eq_digits n n le_rfl

theorem natRepr_eq (n : Nat) :
    natRepr n = if n = 0 then [48] else (Nat.digits 10 n).reverse.map (fun d => d + 48) := by
  rw [natRepr, natDigits_eq]

theorem natRepr_ne_nil (n : Nat) : natRepr n ≠ [] := by
  rw [natRepr_eq]
  by_cases h0 : n = 0
  · simp [h0]
  · simp only [if_neg h0, ne_eq, List.map_eq_nil_iff, List.reverse_eq_nil_iff]
    exact Nat.digits_ne_nil_iff_ne_zero.mpr h0

theorem mem_natRepr (n b : Nat) (hb : b ∈ natRepr n) : 48 ≤ b ∧ b ≤ 57 := by
  rw [natRepr_eq] at hb
  by_cases h0 : n = 0
  · rw [if_pos h0] at hb; simp at hb; omega
  · rw [if_neg h0] at hb
    simp only [List.mem_map, List.mem_reverse] at hb
    obtain ⟨d, hd, rfl⟩ := hb
    have := Nat.digits_lt_base (by norm_num) hd
    omega

theorem mem_natRepr_isDigit (n b : Nat) (hb : b ∈ natRepr n) : isDigit b = true := by
  have := mem_natRepr n b hb
  simp [isDigit]; omega

theorem digitsVal_append (l : List Nat) (x : Nat) :
    digitsVal (l ++ [x]) = digitsVal l * 10 + (x - 48) := by
  simp [digitsVal, List.foldl_append]

theorem digitsVal_rev_map (ds : List Nat) :
    digitsVal (ds.reverse.map (fun d => d + 48)) = Nat.ofDigits 10 ds := by
  induction ds with
  | nil => rfl
  | cons d ds ih =>
    rw [List.reverse_cons, List.map_append, List.map_singleton, digitsVal_append, ih,
      Nat.ofDigits_cons]
    omega

theorem digitsVal_natRepr (n : Nat) : digitsVal (natRepr n) = n := by
  rw [natRepr_eq]
  by_cases h0 : n = 0
  · simp [h0, digitsVal]
  · rw [if_neg h0, digitsVal_rev_map, Nat.ofDigits_digits]

/-- ASCII bytes pass `from_utf8_lossy` unchanged. -/
theorem lossy_ascii (l : List Nat) (h : ∀ b ∈ l, b < 128) : lossyAux l = l := by
  induction l with
  | nil => rfl
  | cons b bs ih =>
    have h1 : b < 128 := h b (by simp)
    rw [lossyAux.eq_def]
    simp only [h1, if_pos]
    rw [ih (fun x hx => h x (by simp [hx]))]

theorem lossy_natRepr (n : Nat) : fromUtf8Lossy (natRepr n) = natRepr n := by
  apply lossy_ascii
  intro b hb
  have := mem_natRepr n b hb
  omega

theorem stripPlus_of_no_plus (bs : List Nat) (h : ∀ t, bs ≠ 43 :: t) : stripPlus bs = bs := by
  cases bs with
  | nil => rfl
  | cons b t =>
    have hb : b ≠ 43 := by
      intro hb; subst hb; exact absurd rfl (h t)
    simp [stripPlus, hb]

theorem stripSign_of_no_sign (bs : List Nat) (h43 : ∀ t, bs ≠ 43 :: t)
    (h45 : ∀ t, bs ≠ 45 :: t) : stripSign bs = (false, bs) := by
  cases bs with
  | nil => rfl
  | cons b t =>
    have hb : b ≠ 43 := by
      intro hb; subst hb; exact absurd rfl (h43 t)
    have hb2 : b ≠ 45 := by
      intro hb; subst hb; exact absurd rfl (h45 t)
    simp [stripSign, hb, hb2]

theorem parseNatBytes_natRepr (n : Nat) : parseNatBytes (natRepr n) = some n := by
  have hne := natRepr_ne_nil n
  have hd : ∀ b ∈ natRepr n, isDigit b = true := mem_natRepr_isDigit n
  have hmatch : stripPlus (natRepr n) = natRepr n := by
    apply stripPlus_of_no_plus
    intro t ht
    have := mem_natRepr n 43 (by rw [ht]; simp)
    omega
  rw [parseNatBytes]
  simp only [hmatch, ne_eq, hne, not_false_eq_true, true_and]
  rw [if_pos (by simpa [List.all_eq_true] using hd), digitsVal_natRepr]

/-! ## CRLF search and header parsing lemmas -/

theorem hasCrlf_cons_false {p : Nat} {l : List Nat} (h : hasCrlf (p :: l) = false) :
    hasCrlf l = false := by
  cases l with
  | nil => rfl
  | cons b t =>
    rw [hasCrlf] at h
    simpa using (Bool.or_eq_false_iff.mp h).2

theorem hasCrlf_cons_of {p : Nat} {l : List Nat} (hp : p ≠ 13) (h : hasCrlf l = false) :
    hasCrlf (p :: l) = false := by
  cases l with
  | nil => rfl
  | cons b t =>
    rw [hasCrlf, h]
    simp [hp]

theorem hasCrlf_of_no13 {l : List Nat} (h : ∀ x ∈ l, x ≠ 13) : hasCrlf l = false := by
  induction l with
  | nil => rfl
  | cons a t ih =>
    exact hasCrlf_cons_of (h a (by simp)) (ih fun x hx => h x (by simp [hx]))

theorem hasCrlf_natRepr (n : Nat) : hasCrlf (natRepr n) = false := by
  apply hasCrlf_of_no13
  intro x hx
  have := mem_natRepr n x hx
  omega

theorem findCrlfAux_after :
    ∀ (l : List Nat), hasCrlf l = false → ∀ (r : List Nat) (i : Nat),
      findCrlfAux (l ++ 13 :: 10 :: r) i 0 1 = some (i + l.length) := by
  intro l
  induction l with
  | nil => intro _ r i; simp [findCrlfAux]
  | cons a t ih =>
    intro h r i
    cases t with
    | nil =>
      have ha : a ≠ 13 ∨ (13 : Nat) ≠ 10 := Or.inr (by omega)
      simp only [List.cons_append, List.nil_append, findCrlfAux]
      rw [if_neg (by omega)]
      simp [findCrlfAux]
    | cons b t2 =>
      have hcond : ¬ (a = 13 ∧ b = 10) := by
        intro ⟨ha, hb2⟩
        rw [hasCrlf, ha, hb2] at h
        simp at h
      have ht : hasCrlf (b :: t2) = false := hasCrlf_cons_false h
      simp only [List.cons_append, findCrlfAux]
      rw [if_neg (by
        intro ⟨ha, hb2⟩
        exact hcond ⟨ha, hb2⟩)]
      have h2 := ih ht r (i + 1)
      have h3 : i + (a :: b :: t2).length = i + 1 + (b :: t2).length := by
        simp [List.length_cons]; omega
      rw [h3]
      exact h2

theorem find_crlf_after (l : List Nat) (h : hasCrlf l = false) (r : List Nat) :
    find_crlf (l ++ 13 :: 10 :: r) 1 = some l.length := by
  have := findCrlfAux_after l h r 0
  simpa [find_crlf] using this

theorem extract_ok (p : Nat) (pay r : List Nat) (hp : p ≠ 13) (hpay : hasCrlf pay = false) :
    extract_simple_frame_data (p :: pay ++ 13 :: 10 :: r) [p] = .ok (pay.length + 1) := by
  rw [extract_simple_frame_data]
  rw [if_neg (by simp [List.length_append]; omega)]
  rw [if_neg (by simp [List.isPrefixOf])]
  have : (p :: pay) ++ 13 :: 10 :: r = p :: pay ++ 13 :: 10 :: r := by simp
  rw [← this, find_crlf_after (p :: pay) (hasCrlf_cons_of hp hpay) r]
  simp

theorem take_header (p : Nat) (pay r : List Nat) :
    ((p :: pay ++ r).take (pay.length + 1)).drop 1 = pay := by
  show (pay ++ r).take pay.length = pay
  exact List.take_left pay r

theorem drop_append_add (l m : List Nat) (k : Nat) : (l ++ m).drop (l.length + k) = m.drop k := by
  induction l with
  | nil => simp
  | cons a t ih =>
    have h1 : (a :: t).length + k = (t.length + k) + 1 := by simp; omega
    rw [h1, List.cons_append]
    show (t ++ m).drop (t.length + k) = m.drop k
    exact ih

theorem drop_header (p : Nat) (pay r : List Nat) :
    (p :: pay ++ r).drop (pay.length + 1 + 2) = r.drop 2 := by
  have h1 : pay.length + 1 + 2 = (pay.length + 2) + 1 := by omega
  rw [h1]
  show (pay ++ r).drop (pay.length + 2) = r.drop 2
  exact drop_append_add pay r 2

theorem parse_length_repr (p n : Nat) (r : List Nat) (hp : p ≠ 13) :
    parse_length (p :: natRepr n ++ 13 :: 10 :: r) [p] = .ok ((natRepr n).length + 1, n) := by
  rw [parse_length, extract_ok p (natRepr n) r hp (hasCrlf_natRepr n)]
  have ht : ((p :: natRepr n ++ 13 :: 10 :: r).take ((natRepr n).length + 1)).drop 1 = natRepr n :=
    take_header p (natRepr n) (13 :: 10 :: r)
  simp only [List.length_singleton, ht]
  rw [lossy_natRepr, parseNatBytes_natRepr]

/-- The `$-1\r\n` / `*-1\r\n` literal never matches a frame whose header
carries a decimal length (the byte after the prefix is a digit, not `-`). -/
theorem not_null_literal (p n : Nat) (r : List Nat) :
    ([p, 45, 49, 13, 10] : List Nat).isPrefixOf (p :: natRepr n ++ r) = false := by
  cases hnr : natRepr n with
  | nil => exact absurd hnr (natRepr_ne_nil n)
  | cons b t =>
    have hb : 48 ≤ b ∧ b ≤ 57 := mem_natRepr n b (by rw [hnr]; simp)
    simp only [hnr, List.cons_append, List.isPrefixOf]
    have : (45 == b) = false := by simp; omega
    simp [this]

/-! ## C10: dispatch on the first byte -/

/-- C10: decoding an empty buffer returns `NotComplete` (not an error);
decoding a nonempty buffer whose first byte is none of the ten prefix
characters `+ - : $ * % ~ _ # ,` returns `InvalidFrameType`; in both cases
the returned buffer is exactly the input buffer. -/
theorem c10_dispatch :
    decode [] = (.err .NotComplete, []) ∧
    ∀ (b : Nat) (bs : List Nat),
      b ∉ ([43, 45, 58, 36, 42, 37, 126, 95, 35, 44] : List Nat) →
      decode (b :: bs) = (.err .InvalidFrameType, b :: bs) := by
  refine ⟨rfl, ?_⟩
  intro b bs hb
  simp only [List.mem_cons, List.not_mem_nil, or_false, not_or] at hb
  obtain ⟨h1, h2, h3, h4, h5, h6, h7, h8, h9, h10⟩ := hb
  simp only [decode, List.length_cons, frameDecode]
  simp [h1, h2, h3, h4, h5, h6, h7, h8, h9, h10]

/-- Witness for C10 at the concrete byte `120` (`x`). -/
theorem c10_dispatch_witness :
    (120 : Nat) ∉ ([43, 45, 58, 36, 42, 37, 126, 95, 35, 44] : List Nat) ∧
    decode [120, 104, 105] = (.err .InvalidFrameType, [120, 104, 105]) :=
  ⟨by decide, c10_dispatch.2 120 [104, 105] (by decide)⟩

/-! ## C9: bulk string decode does not verify the trailing CRLF -/

theorem extend_mismatch (buf lit : List Nat) (h1 : lit.length ≤ buf.length)
    (h2 : lit.isPrefixOf buf = false) :
    extend_fixed_data buf lit = (.err .InvalidFrameType, buf) := by
  rw [extend_fixed_data, if_neg (by omega), if_pos (by simp [h2])]

theorem bulkStringDecode_ok (n : Nat) (body : List Nat) (h : n + 2 ≤ body.length) :
    bulkStringDecode (36 :: natRepr n ++ 13 :: 10 :: body) =
      (.ok (body.take n), body.drop (n + 2)) := by
  rw [bulkStringDecode, parse_length_repr 36 n body (by omega)]
  have hdrop : (36 :: natRepr n ++ 13 :: 10 :: body).drop ((natRepr n).length + 1 + CRLF_LEN) =
      body := by
    have h2 := drop_header 36 (natRepr n) (13 :: 10 :: body)
    simp only [CRLF_LEN]
    rw [h2]
    rfl
  simp only [hdrop]
  rw [if_neg (by simp only [CRLF_LEN]; omega)]
  simp [CRLF_LEN]

theorem frameDecode_bulk (fuel n : Nat) (body : List Nat) (h : n + 2 ≤ body.length) :
    frameDecode (fuel + 1) (36 :: natRepr n ++ 13 :: 10 :: body) =
      (.ok (.BulkString (body.take n)), body.drop (n + 2)) := by
  have hrl : 1 ≤ (natRepr n).length := by
    cases hnr : natRepr n with
    | nil => exact absurd hnr (natRepr_ne_nil n)
    | cons a t => simp
  have hlit : (([36, 45, 49, 13, 10] : List Nat)).length ≤
      (36 :: natRepr n ++ 13 :: 10 :: body).length := by
    simp [List.length_append]
    omega
  rw [frameDecode.eq_def]
  simp only [extend_mismatch _ _ hlit (not_null_literal 36 n (13 :: 10 :: body)),
    bulkStringDecode_ok n body h]
  norm_num

/-- C9: for a buffer `$<digits of n>\r\n<body>` with at least `n + 2` bytes
of body, decode succeeds, returns the first `n` body bytes as the payload
and consumes the header plus `n + 2` bytes — the two bytes after the payload
are skipped without being compared to CRLF. -/
theorem c9_bulk_no_crlf_check (n : Nat) (body : List Nat) (h : n + 2 ≤ body.length) :
    decode (36 :: natRepr n ++ 13 :: 10 :: body) =
      (.ok (.BulkString (body.take n)), body.drop (n + 2)) := by
  rw [decode]
  exact frameDecode_bulk _ n body h

/-- Witness for C9 at the malformed input `$5\r\nhelloXY`: decode succeeds
with payload `hello` although the bytes after it are `XY`, not CRLF. -/
theorem c9_bulk_witness :
    decode [36, 53, 13, 10, 104, 101, 108, 108, 111, 88, 89] =
      (.ok (.BulkString [104, 101, 108, 108, 111]), []) := by
  have h := c9_bulk_no_crlf_check 5 [104, 101, 108, 108, 111, 88, 89] (by decide)
  exact h

/-! ## C7: simple string / simple error decode is lossy, never failing on
non-UTF-8 payloads -/

theorem simpleStringDecode_ok (p : Nat) (pay rest : List Nat) (hp : p ≠ 13)
    (hpay : hasCrlf pay = false) :
    simpleStringDecode [p] (p :: pay ++ 13 :: 10 :: rest) =
      (.ok (fromUtf8Lossy pay), rest) := by
  rw [simpleStringDecode, extract_ok p pay rest hp hpay]
  have h1 := take_header p pay (13 :: 10 :: rest)
  have h2 := drop_header p pay (13 :: 10 :: rest)
  simp only [CRLF_LEN, h1]
  rw [h2]
  rfl

theorem frameDecode_simpleString (fuel : Nat) (pay rest : List Nat)
    (hpay : hasCrlf pay = false) :
    frameDecode (fuel + 1) (43 :: pay ++ 13 :: 10 :: rest) =
      (.ok (.SimpleString (fromUtf8Lossy pay)), rest) := by
  rw [frameDecode.eq_def]
  simp only [simpleStringDecode_ok 43 pay rest (by omega) hpay]
  norm_num

theorem frameDecode_simpleError (fuel : Nat) (pay rest : List Nat)
    (hpay : hasCrlf pay = false) :
    frameDecode (fuel + 1) (45 :: pay ++ 13 :: 10 :: rest) =
      (.ok (.Error (fromUtf8Lossy pay)), rest) := by
  rw [frameDecode.eq_def]
  simp only [simpleStringDecode_ok 45 pay rest (by omega) hpay]
  norm_num

/-- C7 counterexample: the complete SimpleString frame `+\xff\r\n` has a
non-UTF-8 payload (`0xff`), yet decode succeeds — with the payload replaced
by U+FFFD — instead of failing with a structural error. -/
theorem c7_lossy_cex :
    validUtf8 [255] = false ∧
    decode [43, 255, 13, 10] = (.ok (.SimpleString [239, 191, 189]), []) ∧
    fromUtf8Lossy [255] ≠ [255] :=
  ⟨rfl, rfl, by decide⟩

/-- C7 amended: for every complete SimpleString or SimpleError frame
(arbitrary CRLF-free payload, UTF-8 or not), decode succeeds and returns the
`from_utf8_lossy` image of the payload (U+FFFD substituted for ill-formed
bytes); it never fails a UTF-8 check. -/
theorem c7_simple_lossy (pay rest : List Nat) (h : hasCrlf pay = false) :
    decode (43 :: pay ++ 13 :: 10 :: rest) = (.ok (.SimpleString (fromUtf8Lossy pay)), rest) ∧
    decode (45 :: pay ++ 13 :: 10 :: rest) = (.ok (.Error (fromUtf8Lossy pay)), rest) := by
  constructor
  · rw [decode]; exact frameDecode_simpleString _ pay rest h
  · rw [decode]; exact frameDecode_simpleError _ pay rest h

/-- Witness for C7 at payload `0xff`. -/
theorem c7_simple_lossy_witness :
    hasCrlf [255] = false ∧
    decode [43, 255, 13, 10] = (.ok (.SimpleString [239, 191, 189]), []) ∧
    decode [45, 255, 13, 10] = (.ok (.Error [239, 191, 189]), []) :=
  ⟨by decide, (c7_simple_lossy [255] [] (by decide)).1, (c7_simple_lossy [255] [] (by decide)).2⟩

/-! ## C3: double encoding branch condition and formats -/

theorem cmp10_gt_iff (m : Nat) (e p : Int) :
    (cmp10 m e p = .gt) ↔ (10 : ℚ) ^ p < (m : ℚ) * (10 : ℚ) ^ e := by
  rw [cmp10]
  by_cases hpe : p ≤ e
  · rw [if_pos hpe, Nat.compare_eq_gt]
    have hk : ((e - p).toNat : Int) = e - p := Int.toNat_of_nonneg (by omega)
    have h10 : ((10 : ℚ) ^ (e - p).toNat) = (10 : ℚ) ^ ((e : Int) - p) := by
      rw [← zpow_natCast, hk]
    have hsplit : (m : ℚ) * (10 : ℚ) ^ e = ((m * 10 ^ (e - p).toNat : ℕ) : ℚ) * (10 : ℚ) ^ p := by
      push_cast
      rw [h10, mul_assoc, ← zpow_add₀ (by norm_num : (10 : ℚ) ≠ 0)]
      ring_nf
    rw [hsplit]
    constructor
    · intro h
      calc (10 : ℚ) ^ p = 1 * (10 : ℚ) ^ p := by ring
        _ < _ := by
            apply mul_lt_mul_of_pos_right _ (zpow_pos (by norm_num) p)
            exact_mod_cast h
    · intro h
      have h2 : (1 : ℚ) * (10 : ℚ) ^ p < ((m * 10 ^ (e - p).toNat : ℕ) : ℚ) * (10 : ℚ) ^ p := by
        simpa using h
      have := lt_of_mul_lt_mul_right h2 (le_of_lt (zpow_pos (by norm_num : (0:ℚ) < 10) p))
      exact_mod_cast this
  · rw [if_neg hpe, Nat.compare_eq_gt]
    have hk : ((p - e).toNat : Int) = p - e := Int.toNat_of_nonneg (by omega)
    have h10 : ((10 : ℚ) ^ (p - e).toNat) = (10 : ℚ) ^ ((p : Int) - e) := by
      rw [← zpow_natCast, hk]
    have hsplit : (10 : ℚ) ^ p = ((10 ^ (p - e).toNat : ℕ) : ℚ) * (10 : ℚ) ^ e := by
      push_cast
      rw [h10, ← zpow_add₀ (by norm_num : (10 : ℚ) ≠ 0)]
      ring_nf
    rw [hsplit]
    constructor
    · intro h
      apply mul_lt_mul_of_pos_right _ (zpow_pos (by norm_num) e)
      exact_mod_cast h
    · intro h
      have := lt_of_mul_lt_mul_right h (le_of_lt (zpow_pos (by norm_num : (0:ℚ) < 10) e))
      exact_mod_cast this

theorem cmp10_lt_iff (m : Nat) (e p : Int) :
    (cmp10 m e p = .lt) ↔ (m : ℚ) * (10 : ℚ) ^ e < (10 : ℚ) ^ p := by
  rw [cmp10]
  by_cases hpe : p ≤ e
  · rw [if_pos hpe, Nat.compare_eq_lt]
    have hk : ((e - p).toNat : Int) = e - p := Int.toNat_of_nonneg (by omega)
    have h10 : ((10 : ℚ) ^ (e - p).toNat) = (10 : ℚ) ^ ((e : Int) - p) := by
      rw [← zpow_natCast, hk]
    have hsplit : (m : ℚ) * (10 : ℚ) ^ e = ((m * 10 ^ (e - p).toNat : ℕ) : ℚ) * (10 : ℚ) ^ p := by
      push_cast
      rw [h10, mul_assoc, ← zpow_add₀ (by norm_num : (10 : ℚ) ≠ 0)]
      ring_nf
    rw [hsplit]
    constructor
    · intro h
      have h2 : ((m * 10 ^ (e - p).toNat : ℕ) : ℚ) < 1 := by exact_mod_cast h
      calc ((m * 10 ^ (e - p).toNat : ℕ) : ℚ) * (10 : ℚ) ^ p
          < 1 * (10 : ℚ) ^ p := mul_lt_mul_of_pos_right h2 (zpow_pos (by norm_num) p)
        _ = (10 : ℚ) ^ p := by ring
    · intro h
      have h2 : ((m * 10 ^ (e - p).toNat : ℕ) : ℚ) * (10 : ℚ) ^ p < 1 * (10 : ℚ) ^ p := by
        simpa using h
      have := lt_of_mul_lt_mul_right h2 (le_of_lt (zpow_pos (by norm_num : (0:ℚ) < 10) p))
      exact_mod_cast this
  · rw [if_neg hpe, Nat.compare_eq_lt]
    have hk : ((p - e).toNat : Int) = p - e := Int.toNat_of_nonneg (by omega)
    have h10 : ((10 : ℚ) ^ (p - e).toNat) = (10 : ℚ) ^ ((p : Int) - e) := by
      rw [← zpow_natCast, hk]
    have hsplit : (10 : ℚ) ^ p = ((10 ^ (p - e).toNat : ℕ) : ℚ) * (10 : ℚ) ^ e := by
      push_cast
      rw [h10, ← zpow_add₀ (by norm_num : (10 : ℚ) ≠ 0)]
      ring_nf
    rw [hsplit]
    constructor
    · intro h
      apply mul_lt_mul_of_pos_right _ (zpow_pos (by norm_num) e)
      exact_mod_cast h
    · intro h
      have := lt_of_mul_lt_mul_right h (le_of_lt (zpow_pos (by norm_num : (0:ℚ) < 10) e))
      exact_mod_cast this

theorem ord_beq_iff (a b : Ordering) : (a == b) = true ↔ a = b := by
  cases a <;> cases b <;> simp <;> decide

theorem dubSci_iff (d : Dub) :
    dubSci d = true ↔
      ((10 : ℚ) ^ (8 : Int) < dubVal d ∨ dubVal d < (10 : ℚ) ^ (-8 : Int)) := by
  simp only [dubSci, dubVal, Bool.or_eq_true, ord_beq_iff, cmp10_gt_iff, cmp10_lt_iff]

/-- C3 counterexample: the code has no nonzero guard, so `0.0` (with
`|0| < 1e-8`) takes the scientific branch: it encodes as `,+0e0\r\n`, which
is not the fixed-point form the claim requires for zero. -/
theorem c3_zero_cex :
    frameEncode (.Double ⟨false, 0, 0⟩) = [44, 43, 48, 101, 48, 13, 10] ∧
    (44 :: fixedBytes ⟨false, 0, 0⟩ ++ CRLF) = [44, 43, 48, 13, 10] ∧
    frameEncode (.Double ⟨false, 0, 0⟩) ≠ 44 :: fixedBytes ⟨false, 0, 0⟩ ++ CRLF :=
  ⟨rfl, rfl, by decide⟩

/-- C3 amended: encoding `Double d` produces `,` then signed scientific
notation and CRLF exactly when `|v| > 1e8` or `|v| < 1e-8` — with zero
included in the small-magnitude scientific branch, since the code has no
nonzero guard; otherwise fixed-point notation with an explicit `+` for
non-negative values.  The examples of the claim hold, except that `0.0`
encodes as `,+0e0\r\n` (scientific), not fixed-point. -/
theorem c3_double_encode :
    (∀ d : Dub,
      ((10 : ℚ) ^ (8 : Int) < dubVal d ∨ dubVal d < (10 : ℚ) ^ (-8 : Int) →
        frameEncode (.Double d) = 44 :: expBytes d ++ CRLF) ∧
      (¬ ((10 : ℚ) ^ (8 : Int) < dubVal d ∨ dubVal d < (10 : ℚ) ^ (-8 : Int)) →
        frameEncode (.Double d) = 44 :: ((if d.neg then [] else [43]) ++ displayBytes d) ++ CRLF)) ∧
    frameEncode (.Double ⟨false, 123456, -3⟩) =
      [44, 43, 49, 50, 51, 46, 52, 53, 54, 13, 10] ∧
    frameEncode (.Double ⟨false, 15, 7⟩) = [44, 43, 49, 46, 53, 101, 56, 13, 10] ∧
    frameEncode (.Double ⟨true, 1234, -12⟩) =
      [44, 45, 49, 46, 50, 51, 52, 101, 45, 57, 13, 10] ∧
    frameEncode (.Double ⟨false, 0, 0⟩) = [44, 43, 48, 101, 48, 13, 10] := by
  refine ⟨?_, rfl, rfl, rfl, rfl⟩
  intro d
  constructor
  · intro h
    have hs : dubSci d = true := (dubSci_iff d).mpr h
    rw [frameEncode, if_pos hs]
  · intro h
    have hs : dubSci d = false := by
      cases hq : dubSci d with
      | true => exact absurd ((dubSci_iff d).mp hq) h
      | false => rfl
    rw [frameEncode, if_neg (by rw [hs]; exact Bool.false_ne_true), fixedBytes]

/-! ## Lexicographic order and BTreeMap-insert lemmas -/

theorem lexLt_irrefl : ∀ a, lexLt a a = false
  | [] => rfl
  | x :: xs => by simp [lexLt, lexLt_irrefl xs]

theorem lexLt_asymm : ∀ a b, lexLt a b = true → lexLt b a = false
  | [], [] => by simp [lexLt]
  | [], _ :: _ => by simp [lexLt]
  | _ :: _, [] => by simp [lexLt]
  | x :: xs, y :: ys => by
    intro h
    rw [lexLt] at h
    rw [lexLt]
    by_cases hxy : x < y
    · rw [if_neg (by omega), if_neg (by omega)]
    · rw [if_neg hxy] at h
      by_cases hxe : x = y
      · rw [if_pos hxe] at h
        subst hxe
        rw [if_neg (by omega), if_pos rfl]
        exact lexLt_asymm xs ys h
      · rw [if_neg hxe] at h
        exact absurd h (by simp)

theorem lexLt_trans : ∀ a b c, lexLt a b = true → lexLt b c = true → lexLt a c = true
  | [], b, [] => by intro _ h2; cases b <;> simp [lexLt] at h2
  | [], _, _ :: _ => by intro _ _; simp [lexLt]
  | _ :: _, [], _ => by intro h1 _; simp [lexLt] at h1
  | x :: xs, y :: ys, [] => by intro _ h2; simp [lexLt] at h2
  | x :: xs, y :: ys, z :: zs => by
    intro h1 h2
    rw [lexLt] at h1 h2 ⊢
    by_cases hxy : x < y
    · by_cases hyz : y < z
      · rw [if_pos (by omega)]
      · rw [if_neg hyz] at h2
        by_cases hye : y = z
        · rw [if_pos (by omega)]
        · rw [if_neg hye] at h2; exact absurd h2 (by simp)
    · rw [if_neg hxy] at h1
      by_cases hxe : x = y
      · rw [if_pos hxe] at h1
        subst hxe
        by_cases hyz : x < z
        · rw [if_pos hyz]
        · rw [if_neg hyz] at h2 ⊢
          by_cases hye : x = z
          · rw [if_pos hye] at h2 ⊢
            exact lexLt_trans xs ys zs h1 h2
          · rw [if_neg hye] at h2; exact absurd h2 (by simp)
      · rw [if_neg hxe] at h1; exact absurd h1 (by simp)

theorem lexLt_connex : ∀ a b, a ≠ b → lexLt a b = true ∨ lexLt b a = true
  | [], [] => fun h => absurd rfl h
  | [], _ :: _ => fun _ => Or.inl (by simp [lexLt])
  | _ :: _, [] => fun _ => Or.inr (by simp [lexLt])
  | x :: xs, y :: ys => by
    intro h
    by_cases hxy : x < y
    · exact Or.inl (by rw [lexLt, if_pos hxy])
    · by_cases hyx : y < x
      · exact Or.inr (by rw [lexLt, if_pos hyx])
      · have hxe : x = y := by omega
        subst hxe
        have hne : xs ≠ ys := by intro he; exact h (by rw [he])
        rcases lexLt_connex xs ys hne with h1 | h1
        · exact Or.inl (by rw [lexLt, if_neg (by omega), if_pos rfl]; exact h1)
        · exact Or.inr (by rw [lexLt, if_neg (by omega), if_pos rfl]; exact h1)

theorem keysAscending_tail {a : List Nat} {l : List (List Nat)}
    (h : keysAscending (a :: l) = true) : keysAscending l = true := by
  cases l with
  | nil => rfl
  | cons b t =>
    rw [keysAscending] at h
    exact (Bool.and_eq_true_iff.mp h).2

theorem keysAscending_head_lt {a : List Nat} {l : List (List Nat)}
    (h : keysAscending (a :: l) = true) : ∀ x ∈ l, lexLt a x = true := by
  induction l generalizing a with
  | nil => intro x hx; simp at hx
  | cons b t ih =>
    intro x hx
    rw [keysAscending] at h
    obtain ⟨h1, h2⟩ := Bool.and_eq_true_iff.mp h
    rcases List.mem_cons.mp hx with rfl | hx2
    · exact h1
    · exact lexLt_trans a b x h1 (ih h2 x hx2)

/-- `btInsert` of a key greater than everything in the list appends. -/
theorem btInsert_append_of_all_lt (k : List Nat) (v : Frame) :
    ∀ (l : List (List Nat × Frame)), (∀ x ∈ l, lexLt x.1 k = true) →
      btInsert k v l = l ++ [(k, v)]
  | [], _ => rfl
  | (k1, v1) :: rest, h => by
    have hlt : lexLt k1 k = true := h (k1, v1) (by simp)
    rw [btInsert, if_neg (by rw [lexLt_asymm k1 k hlt]; simp),
      if_neg (by intro he; subst he; rw [lexLt_irrefl] at hlt; exact absurd hlt (by simp)),
      btInsert_append_of_all_lt k v rest (fun x hx => h x (by simp [hx]))]
    rfl

/-- Folding `btInsert` over entries with ascending keys, all above the
accumulator's keys, concatenates. -/
theorem foldl_btInsert_append :
    ∀ (es acc : List (List Nat × Frame)),
      keysAscending (es.map Prod.fst) = true →
      (∀ x ∈ acc, ∀ y ∈ es, lexLt x.1 y.1 = true) →
      keysAscending (acc.map Prod.fst) = true →
      es.foldl (fun acc kv => btInsert kv.1 kv.2 acc) acc = acc ++ es
  | [], acc => by intro _ _ _; simp
  | kv :: es, acc => by
    intro hasc hlt hacc
    rw [List.foldl_cons]
    have hstep : btInsert kv.1 kv.2 acc = acc ++ [kv] := by
      rw [btInsert_append_of_all_lt kv.1 kv.2 acc (fun x hx => hlt x hx kv (by simp))]
    rw [hstep]
    have hasc2 : keysAscending (es.map Prod.fst) = true := by
      rw [List.map_cons] at hasc
      exact keysAscending_tail hasc
    have hhd : ∀ y ∈ es, lexLt kv.1 y.1 = true := by
      intro y hy
      rw [List.map_cons] at hasc
      exact keysAscending_head_lt hasc y.1 (List.mem_map_of_mem Prod.fst hy)
    have hlt2 : ∀ x ∈ acc ++ [kv], ∀ y ∈ es, lexLt x.1 y.1 = true := by
      intro x hx y hy
      rcases List.mem_append.mp hx with hx1 | hx1
      · exact hlt x hx1 y (by simp [hy])
      · rcases List.mem_singleton.mp hx1 with rfl
        exact hhd y hy
    have hacc2 : keysAscending ((acc ++ [kv]).map Prod.fst) = true := by
      have : ∀ (l : List (List Nat)) (z : List Nat),
          keysAscending l = true → (∀ x ∈ l, lexLt x z = true) →
          keysAscending (l ++ [z]) = true := by
        intro l
        induction l with
        | nil => intro z _ _; rfl
        | cons a t ih =>
          intro z h1 h2
          cases t with
          | nil =>
            rw [List.cons_append, List.nil_append, keysAscending]
            simp [h2 a (by simp), keysAscending]
          | cons b t2 =>
            rw [keysAscending] at h1
            obtain ⟨hab, ht⟩ := Bool.and_eq_true_iff.mp h1
            rw [List.cons_append, List.cons_append, keysAscending, hab]
            have := ih z ht (fun x hx => h2 x (by simp [hx]))
            rw [List.cons_append] at this
            simp [this]
      rw [List.map_append, List.map_singleton]
      exact this (acc.map Prod.fst) kv.1 hacc
        (fun x hx => by
          obtain ⟨p, hp, rfl⟩ := List.mem_map.mp hx
          exact hlt p hp kv (by simp))
    rw [foldl_btInsert_append es (acc ++ [kv]) hasc2 hlt2 hacc2]
    simp

/-- Folding `btInsert` over an ascending entry list reproduces it: the
canonical `BTreeMap` content of entries inserted in ascending key order. -/
theorem foldl_btInsert_id (es : List (List Nat × Frame))
    (h : keysAscending (es.map Prod.fst) = true) :
    es.foldl (fun acc kv => btInsert kv.1 kv.2 acc) [] = es := by
  have := foldl_btInsert_append es [] h (by intro x hx; simp at hx) rfl
  simpa using this

theorem mem_btInsert_self (k : List Nat) (v : Frame) :
    ∀ (l : List (List Nat × Frame)), (k, v) ∈ btInsert k v l
  | [] => by simp [btInsert]
  | (k1, v1) :: rest => by
    rw [btInsert]
    by_cases h1 : lexLt k k1 = true
    · rw [if_pos h1]; simp
    · rw [if_neg h1]
      by_cases h2 : k = k1
      · rw [if_pos h2]; simp
      · rw [if_neg h2]
        have := mem_btInsert_self k v rest
        simp [this]

theorem mem_btInsert_of_mem (k : List Nat) (v : Frame) (kv : List Nat × Frame)
    (hne : kv.1 ≠ k) :
    ∀ (l : List (List Nat × Frame)), kv ∈ l → kv ∈ btInsert k v l
  | [], h => by simp at h
  | (k1, v1) :: rest, h => by
    rw [btInsert]
    by_cases h1 : lexLt k k1 = true
    · rw [if_pos h1]; simp [h]
    · rw [if_neg h1]
      by_cases h2 : k = k1
      · rw [if_pos h2]
        subst h2
        rcases List.mem_cons.mp h with rfl | h3
        · exact absurd rfl hne
        · simp [h3]
      · rw [if_neg h2]
        rcases List.mem_cons.mp h with rfl | h3
        · simp
        · have := mem_btInsert_of_mem k v kv hne rest h3
          simp [this]

theorem mem_of_mem_btInsert (k : List Nat) (v : Frame) (kv : List Nat × Frame) :
    ∀ (l : List (List Nat × Frame)), kv ∈ btInsert k v l → kv = (k, v) ∨ kv ∈ l
  | [], h => by simpa [btInsert] using h
  | (k1, v1) :: rest, h => by
    rw [btInsert] at h
    by_cases h1 : lexLt k k1 = true
    · rw [if_pos h1] at h
      rcases List.mem_cons.mp h with rfl | h3
      · exact Or.inl rfl
      · exact Or.inr h3
    · rw [if_neg h1] at h
      by_cases h2 : k = k1
      · rw [if_pos h2] at h
        rcases List.mem_cons.mp h with rfl | h3
        · exact Or.inl rfl
        · exact Or.inr (by simp [h3])
      · rw [if_neg h2] at h
        rcases List.mem_cons.mp h with rfl | h3
        · exact Or.inr (by simp)
        · rcases mem_of_mem_btInsert k v kv rest h3 with h4 | h4
          · exact Or.inl h4
          · exact Or.inr (by simp [h4])

theorem keysAscending_btInsert (k : List Nat) (v : Frame) :
    ∀ (l : List (List Nat × Frame)), keysAscending (l.map Prod.fst) = true →
      keysAscending ((btInsert k v l).map Prod.fst) = true
  | [], _ => rfl
  | (k1, v1) :: rest, h => by
    rw [btInsert]
    by_cases h1 : lexLt k k1 = true
    · rw [if_pos h1]
      rw [List.map_cons, List.map_cons, keysAscending]
      simp only [h1, Bool.true_and]
      exact h
    · rw [if_neg h1]
      by_cases h2 : k = k1
      · rw [if_pos h2]
        subst h2
        exact h
      · rw [if_neg h2]
        rw [List.map_cons] at h ⊢
        have htail := keysAscending_tail h
        have hrec := keysAscending_btInsert k v rest htail
        have hk1k : lexLt k1 k = true := by
          rcases lexLt_connex k k1 h2 with h3 | h3
          · exact absurd h3 h1
          · exact h3
        have hhd : ∀ x ∈ (btInsert k v rest).map Prod.fst, lexLt k1 x = true := by
          intro x hx
          obtain ⟨p, hp, rfl⟩ := List.mem_map.mp hx
          rcases mem_of_mem_btInsert k v p rest hp with rfl | h4
          · exact hk1k
          · exact keysAscending_head_lt h p.1 (List.mem_map_of_mem Prod.fst h4)
        cases hbt : (btInsert k v rest).map Prod.fst with
        | nil => rfl
        | cons q t =>
          rw [keysAscending]
          have hq : lexLt k1 q = true := hhd q (by rw [hbt]; simp)
          rw [hq]
          rw [hbt] at hrec
          simp [hrec]

theorem length_btInsert_of_not_mem (k : List Nat) (v : Frame) :
    ∀ (l : List (List Nat × Frame)), k ∉ l.map Prod.fst →
      (btInsert k v l).length = l.length + 1
  | [], _ => rfl
  | (k1, v1) :: rest, h => by
    have hne : k ≠ k1 := by
      intro he; exact h (by rw [he]; simp)
    rw [btInsert]
    by_cases h1 : lexLt k k1 = true
    · rw [if_pos h1]; simp
    · rw [if_neg h1, if_neg hne]
      have := length_btInsert_of_not_mem k v rest (by
        intro hm; exact h (by simp [hm]))
      simp [this]

/-! ## C4: HGetAll asymmetry -/

theorem fold_btInsert_mem (tbl : List (List Nat × Frame)) :
    ∀ acc, keysAscending (acc.map Prod.fst) = true →
      (tbl.map Prod.fst).Nodup →
      (∀ x ∈ acc, x.1 ∉ tbl.map Prod.fst) →
      keysAscending ((tbl.foldl (fun a kv => btInsert kv.1 kv.2 a) acc).map Prod.fst) = true ∧
      (∀ kv, kv ∈ tbl.foldl (fun a kv => btInsert kv.1 kv.2 a) acc ↔ (kv ∈ acc ∨ kv ∈ tbl)) := by
  induction tbl with
  | nil =>
    intro acc hacc _ _
    refine ⟨hacc, ?_⟩
    intro kv; simp
  | cons kv0 tbl ih =>
    intro acc hacc hnd hdisj
    rw [List.map_cons, List.nodup_cons] at hnd
    have hstep := ih (btInsert kv0.1 kv0.2 acc) (keysAscending_btInsert kv0.1 kv0.2 acc hacc)
      hnd.2
      (by
        intro x hx
        rcases mem_of_mem_btInsert kv0.1 kv0.2 x acc hx with rfl | h2
        · exact hnd.1
        · intro hm
          exact hdisj x h2 (by simp [hm]))
    rw [List.foldl_cons]
    refine ⟨hstep.1, ?_⟩
    intro kv
    rw [hstep.2 kv]
    constructor
    · intro h
      rcases h with h | h
      · rcases mem_of_mem_btInsert kv0.1 kv0.2 kv acc h with rfl | h2
        · exact Or.inr (by simp)
        · exact Or.inl h2
      · exact Or.inr (by simp [h])
    · intro h
      rcases h with h | h
      · have hne : kv.1 ≠ kv0.1 := by
          intro he
          exact hdisj kv h (by rw [he]; simp)
        exact Or.inl (mem_btInsert_of_mem kv0.1 kv0.2 kv hne acc h)
      · rcases List.mem_cons.mp h with rfl | h2
        · exact Or.inl (by
            have := mem_btInsert_self kv.1 kv.2 acc
            simpa using this)
        · exact Or.inr h2

/-- C4: executing `HGetAll(key)` against a backend where the key's field
table exists returns a Map frame containing exactly the field-to-value
pairs of that table, in ascending field order (the shape `RespMap`
encoding emits); executing it for a key with no field table returns an
empty Array frame, not an empty Map.  The field tables of the store have
unique field names, stated as the `Nodup` hypothesis. -/
theorem c4_hgetall_asymmetry (b : Backend) (k : List Nat) :
    (∀ tbl, b.hgetall k = some tbl → (tbl.map Prod.fst).Nodup →
      ∃ m, execute (.HGetAll k) b = (.Map m, b) ∧
        (∀ kv, kv ∈ m ↔ kv ∈ tbl) ∧
        keysAscending (m.map Prod.fst) = true) ∧
    (b.hgetall k = none → execute (.HGetAll k) b = (.Array [], b)) := by
  constructor
  · intro tbl htbl hnd
    refine ⟨tbl.foldl (fun a kv => btInsert kv.1 kv.2 a) [], ?_, ?_, ?_⟩
    · simp [execute, htbl]
    · intro kv
      have := (fold_btInsert_mem tbl [] rfl hnd (by simp)).2 kv
      simpa using this
    · exact (fold_btInsert_mem tbl [] rfl hnd (by simp)).1
  · intro hn
    simp [execute, hn]

/-- Witness for C4: a store holding `k ↦ {f ↦ v}`; `HGetAll k` yields the
one-entry Map, `HGetAll missing` yields the empty Array. -/
theorem c4_hgetall_witness :
    (∃ m, execute (.HGetAll [107]) ⟨[], [([107], [([102], .BulkString [118])])]⟩ =
        (.Map m, ⟨[], [([107], [([102], .BulkString [118])])]⟩) ∧
      (∀ kv, kv ∈ m ↔ kv ∈ [([102], Frame.BulkString [118])]) ∧
      keysAscending (m.map Prod.fst) = true) ∧
    execute (.HGetAll [109]) ⟨[], [([107], [([102], .BulkString [118])])]⟩ =
      (.Array [], ⟨[], [([107], [([102], .BulkString [118])])]⟩) :=
  ⟨(c4_hgetall_asymmetry ⟨[], [([107], [([102], .BulkString [118])])]⟩ [107]).1
      [([102], .BulkString [118])] rfl (by simp),
   (c4_hgetall_asymmetry ⟨[], [([107], [([102], .BulkString [118])])]⟩ [109]).2 rfl⟩

/-! ## C5: command validation shapes -/

theorem toLower_getb : toAsciiLower GETB = GETB := by decide
theorem toLower_setb : toAsciiLower SETB = SETB := by decide
theorem toLower_hgetb : toAsciiLower HGETB = HGETB := by decide
theorem toLower_hsetb : toAsciiLower HSETB = HSETB := by decide
theorem toLower_hgetallb : toAsciiLower HGETALLB = HGETALLB := by decide

/-- C5: wrong element counts are rejected with `InvalidArgument` for each
known command (arities: get 1, set 2, hget 2, hset 3, hgetall 1); a first
element that is an `Integer` (any non-BulkString) is rejected with
`InvalidCommand`; and with the exact arity and well-typed arguments each
conversion succeeds. -/
theorem c5_validation :
    (∀ (i : Int) (rest : List Frame),
      commandTryFromArray (.Integer i :: rest) = .error .InvalidCommand) ∧
    (∀ args : List Frame, args.length ≠ 1 →
      commandTryFromArray (.BulkString GETB :: args) = .error .InvalidArgument) ∧
    (∀ args : List Frame, args.length ≠ 2 →
      commandTryFromArray (.BulkString SETB :: args) = .error .InvalidArgument) ∧
    (∀ args : List Frame, args.length ≠ 2 →
      commandTryFromArray (.BulkString HGETB :: args) = .error .InvalidArgument) ∧
    (∀ args : List Frame, args.length ≠ 3 →
      commandTryFromArray (.BulkString HSETB :: args) = .error .InvalidArgument) ∧
    (∀ args : List Frame, args.length ≠ 1 →
      commandTryFromArray (.BulkString HGETALLB :: args) = .error .InvalidArgument) ∧
    (∀ k, validUtf8 k = true →
      commandTryFromArray [.BulkString GETB, .BulkString k] = .ok (.Get k)) ∧
    (∀ k v, validUtf8 k = true →
      commandTryFromArray [.BulkString SETB, .BulkString k, v] = .ok (.Set k v)) ∧
    (∀ k f, validUtf8 k = true → validUtf8 f = true →
      commandTryFromArray [.BulkString HGETB, .BulkString k, .BulkString f] =
        .ok (.HGet k f)) ∧
    (∀ k f v, validUtf8 k = true → validUtf8 f = true →
      commandTryFromArray [.BulkString HSETB, .BulkString k, .BulkString f, v] =
        .ok (.HSet k f v)) ∧
    (∀ k, validUtf8 k = true →
      commandTryFromArray [.BulkString HGETALLB, .BulkString k] = .ok (.HGetAll k)) := by
  refine ⟨?_, ?_, ?_, ?_, ?_, ?_, ?_, ?_, ?_, ?_, ?_⟩
  · intro i rest
    simp [commandTryFromArray]
  · intro args h
    simp [commandTryFromArray, getTryFrom, validate_command, GETB, SETB, HGETB, HSETB, HGETALLB, h]
  · intro args h
    simp [commandTryFromArray, setTryFrom, validate_command, GETB, SETB, HGETB, HSETB, HGETALLB, h]
  · intro args h
    simp [commandTryFromArray, hgetTryFrom, validate_command, GETB, SETB, HGETB, HSETB, HGETALLB, h]
  · intro args h
    simp [commandTryFromArray, hsetTryFrom, validate_command, GETB, SETB, HGETB, HSETB, HGETALLB, h]
  · intro args h
    simp [commandTryFromArray, hgetallTryFrom, validate_command, GETB, SETB, HGETB, HSETB,
      HGETALLB, h]
  · intro k h
    simp [commandTryFromArray, getTryFrom, validate_command, validateNames, extract_args,
      toAsciiLower, GETB, SETB, HGETB, HSETB, HGETALLB, h]
  · intro k v h
    simp [commandTryFromArray, setTryFrom, validate_command, validateNames, extract_args,
      toAsciiLower, GETB, SETB, HGETB, HSETB, HGETALLB, h]
  · intro k f h hf
    simp [commandTryFromArray, hgetTryFrom, validate_command, validateNames, extract_args,
      toAsciiLower, GETB, SETB, HGETB, HSETB, HGETALLB, h, hf]
  · intro k f v h hf
    simp [commandTryFromArray, hsetTryFrom, validate_command, validateNames, extract_args,
      toAsciiLower, GETB, SETB, HGETB, HSETB, HGETALLB, h, hf]
  · intro k h
    simp [commandTryFromArray, hgetallTryFrom, validate_command, validateNames, extract_args,
      toAsciiLower, GETB, SETB, HGETB, HSETB, HGETALLB, h]

/-- Witness for C5: `set key` (two elements) is `InvalidArgument`; an array
headed by an Integer is `InvalidCommand`; `get key` converts. -/
theorem c5_validation_witness :
    commandTryFromArray [.BulkString SETB, .BulkString [107]] = .error .InvalidArgument ∧
    commandTryFromArray [.Integer 5, .BulkString [107]] = .error .InvalidCommand ∧
    commandTryFromArray [.BulkString GETB, .BulkString [107]] = .ok (.Get [107]) :=
  ⟨c5_validation.2.2.1 [.BulkString [107]] (by decide),
   c5_validation.1 5 [.BulkString [107]],
   c5_validation.2.2.2.2.2.2.1 [107] (by decide)⟩

/-! ## C6: unrecognized commands -/

/-- C6: an array whose first element is a BulkString not byte-equal to one
of the five lowercase command names (case-sensitively — upper- and
mixed-case spellings included) converts to `Unrecognized`, not an error,
and executing `Unrecognized` returns SimpleString `OK` and leaves the
backend exactly as it was. -/
theorem c6_unrecognized_ok (cmd : List Nat) (rest : List Frame) (b : Backend)
    (h : cmd ∉ ([GETB, SETB, HGETB, HSETB, HGETALLB] : List (List Nat))) :
    commandTryFromArray (.BulkString cmd :: rest) = .ok .Unrecognized ∧
    execute .Unrecognized b = (okFrame, b) := by
  simp only [List.mem_cons, List.not_mem_nil, or_false, not_or] at h
  obtain ⟨h1, h2, h3, h4, h5⟩ := h
  exact ⟨by simp [commandTryFromArray, h1, h2, h3, h4, h5], rfl⟩

/-- Witness for C6 at the upper-case name `GET` against a nonempty store:
classification is `Unrecognized` and execution returns OK leaving the store
untouched. -/
theorem c6_unrecognized_witness :
    ([71, 69, 84] : List Nat) ∉ ([GETB, SETB, HGETB, HSETB, HGETALLB] : List (List Nat)) ∧
    commandTryFromArray [.BulkString [71, 69, 84], .BulkString [107]] = .ok .Unrecognized ∧
    execute .Unrecognized ⟨[([107], .Integer 1)], []⟩ =
      (okFrame, ⟨[([107], .Integer 1)], []⟩) :=
  ⟨by decide,
   (c6_unrecognized_ok [71, 69, 84] [.BulkString [107]] ⟨[], []⟩ (by decide)).1,
   (c6_unrecognized_ok [71, 69, 84] [] ⟨[([107], .Integer 1)], []⟩ (by decide)).2⟩

/-! ## C1: the non-destructive-on-incomplete guarantee fails -/

/-- C1 (code bug): two evaluations of the decoder at inputs the claim
covers.  (1) `*1\r\n$5\r\nhel` is a strict prefix of the complete encoding
`*1\r\n$5\r\nhello\r\n` of `Array [BulkString "hello"]`, yet decode does
not return `NotComplete`: the measurement pass `calc_total_length` slices
`&data[11..]` out of a 7-byte slice and panics.  (2) `*1\r\n*0\r\n` is the
complete encoding of `Array [Array []]`, yet decode returns `NotComplete`
with the buffer already advanced past the outer header (the nested
`RespNullArray::decode` length check wants five bytes where the complete
empty-array frame has four, and the `*` arm propagates its `NotComplete`
after the consume pass has begun), so the buffer is not left byte-for-byte
unchanged on `NotComplete`. -/
theorem c1_notcomplete_violated :
    frameEncode (.Array [.BulkString [104, 101, 108, 108, 111]]) =
      [42, 49, 13, 10, 36, 53, 13, 10, 104, 101, 108, 108, 111, 13, 10] ∧
    ([42, 49, 13, 10, 36, 53, 13, 10, 104, 101, 108] : List Nat).isPrefixOf
      [42, 49, 13, 10, 36, 53, 13, 10, 104, 101, 108, 108, 111, 13, 10] = true ∧
    decode [42, 49, 13, 10, 36, 53, 13, 10, 104, 101, 108] =
      (.panic, [42, 49, 13, 10, 36, 53, 13, 10, 104, 101, 108]) ∧
    frameEncode (.Array [.Array []]) = [42, 49, 13, 10, 42, 48, 13, 10] ∧
    decode [42, 49, 13, 10, 42, 48, 13, 10] = (.err .NotComplete, [42, 48, 13, 10]) ∧
    ([42, 48, 13, 10] : List Nat) ≠ [42, 49, 13, 10, 42, 48, 13, 10] :=
  ⟨rfl, rfl, rfl, rfl, rfl, by decide⟩

/-! ## Round trip support: lossy identity on valid UTF-8, numeric payloads -/

set_option maxHeartbeats 1000000 in
/-- `from_utf8_lossy` is the identity on valid UTF-8 byte sequences. -/
theorem lossy_of_valid : ∀ l, validUtf8 l = true → lossyAux l = l := by
  intro l
  induction l using lossyAux.induct <;> intro h <;>
    (try rfl) <;>
    (rw [validUtf8.eq_def] at h) <;>
    (rw [lossyAux.eq_def]) <;>
    (try simp only [contB] at h ⊢) <;>
    (first
      | rfl
      | (simp_all [contB]; done)
      | (split_ifs at h ⊢ <;> first | (exfalso; omega) | (simp_all [contB]; done) | omega))

theorem fromUtf8Lossy_of_valid (l : List Nat) (h : validUtf8 l = true) :
    fromUtf8Lossy l = l := lossy_of_valid l h

theorem mem_intReprPlus (i : Int) (x : Nat) (hx : x ∈ intReprPlus i) :
    x = 43 ∨ x = 45 ∨ (48 ≤ x ∧ x ≤ 57) := by
  rw [intReprPlus] at hx
  by_cases h0 : 0 ≤ i
  · rw [if_pos h0] at hx
    rcases List.mem_cons.mp hx with rfl | hx2
    · exact Or.inl rfl
    · exact Or.inr (Or.inr (mem_natRepr _ x hx2))
  · rw [if_neg h0] at hx
    rcases List.mem_cons.mp hx with rfl | hx2
    · exact Or.inr (Or.inl rfl)
    · exact Or.inr (Or.inr (mem_natRepr _ x hx2))

theorem hasCrlf_intReprPlus (i : Int) : hasCrlf (intReprPlus i) = false := by
  apply hasCrlf_of_no13
  intro x hx
  rcases mem_intReprPlus i x hx with rfl | rfl | hd <;> omega

theorem lossy_intReprPlus (i : Int) : fromUtf8Lossy (intReprPlus i) = intReprPlus i := by
  apply lossy_ascii
  intro x hx
  rcases mem_intReprPlus i x hx with rfl | rfl | hd <;> omega

theorem stripSign_plus (t : List Nat) : stripSign (43 :: t) = (false, t) := by
  simp [stripSign]

theorem stripSign_minus (t : List Nat) : stripSign (45 :: t) = (true, t) := by
  simp [stripSign]

theorem all_isDigit_natRepr (n : Nat) : (natRepr n).all isDigit = true := by
  rw [List.all_eq_true]
  exact fun b hb => mem_natRepr_isDigit n b hb

theorem parseIntBytes_intReprPlus (i : Int) (h1 : -(2 ^ 63) ≤ i) (h2 : i < 2 ^ 63) :
    parseIntBytes (intReprPlus i) = some i := by
  by_cases h0 : 0 ≤ i
  · have hc : ((i.toNat : Int)) = i := Int.toNat_of_nonneg h0
    rw [intReprPlus, if_pos h0, parseIntBytes, stripSign_plus]
    simp only [ne_eq, natRepr_ne_nil, not_false_eq_true, all_isDigit_natRepr, and_self, if_true,
      Bool.false_eq_true, if_false, digitsVal_natRepr, true_and]
    rw [if_pos (by omega), hc]
  · have hc : (((-i).toNat : Int)) = -i := Int.toNat_of_nonneg (by omega)
    rw [intReprPlus, if_neg h0, parseIntBytes, stripSign_minus]
    simp only [ne_eq, natRepr_ne_nil, not_false_eq_true, all_isDigit_natRepr, and_self, if_true,
      Bool.false_eq_true, if_false, digitsVal_natRepr, true_and]
    rw [if_pos (by omega)]
    congr 1
    omega

/-! ## Double parse round trip -/

theorem takeWhile_all_digits (l : List Nat) (h : ∀ b ∈ l, isDigit b = true) :
    l.takeWhile isDigit = l ∧ l.dropWhile isDigit = [] := by
  induction l with
  | nil => exact ⟨rfl, rfl⟩
  | cons a t ih =>
    have ha : isDigit a = true := h a (by simp)
    have ih2 := ih (fun b hb => h b (by simp [hb]))
    rw [List.takeWhile_cons, List.dropWhile_cons, if_pos ha, if_pos ha, ih2.1]
    exact ⟨rfl, ih2.2⟩

theorem takeWhile_digits_append (a : List Nat) (x : Nat) (y : List Nat)
    (ha : ∀ b ∈ a, isDigit b = true) (hx : isDigit x = false) :
    (a ++ x :: y).takeWhile isDigit = a ∧ (a ++ x :: y).dropWhile isDigit = x :: y := by
  induction a with
  | nil =>
    rw [List.nil_append, List.takeWhile_cons, List.dropWhile_cons, if_neg (by simp [hx]),
      if_neg (by simp [hx])]
    exact ⟨rfl, rfl⟩
  | cons b t ih =>
    have hb : isDigit b = true := ha b (by simp)
    have ih2 := ih (fun c hc => ha c (by simp [hc]))
    rw [List.cons_append, List.takeWhile_cons, List.dropWhile_cons, if_pos hb, if_pos hb, ih2.1]
    exact ⟨rfl, ih2.2⟩

theorem digitsVal_foldl_acc : ∀ (l : List Nat) (acc : Nat),
    l.foldl (fun a b => a * 10 + (b - 48)) acc = acc * 10 ^ l.length + digitsVal l
  | [], acc => by simp [digitsVal]
  | b :: t, acc => by
    rw [List.foldl_cons, digitsVal_foldl_acc t (acc * 10 + (b - 48))]
    have hd : digitsVal (b :: t) = (b - 48) * 10 ^ t.length + digitsVal t := by
      rw [digitsVal, List.foldl_cons]
      have := digitsVal_foldl_acc t (0 * 10 + (b - 48))
      rw [this]
      ring_nf
    rw [hd]
    simp [List.length_cons]
    ring

theorem digitsVal_append_full (a b : List Nat) :
    digitsVal (a ++ b) = digitsVal a * 10 ^ b.length + digitsVal b := by
  rw [digitsVal, List.foldl_append, digitsVal_foldl_acc b (a.foldl _ 0)]
  rfl

theorem digitsVal_replicate48 (k : Nat) : digitsVal (List.replicate k 48) = 0 := by
  induction k with
  | zero => rfl
  | succ k ih =>
    rw [List.replicate_succ, digitsVal, List.foldl_cons]
    show digitsVal (List.replicate k 48) = 0
    exact ih

theorem digitsVal_append_zeros (l : List Nat) (k : Nat) :
    digitsVal (l ++ List.replicate k 48) = digitsVal l * 10 ^ k := by
  rw [digitsVal_append_full, digitsVal_replicate48, List.length_replicate]
  omega

theorem digitsVal_cons48 (l : List Nat) : digitsVal (48 :: l) = digitsVal l := rfl

theorem digitsVal_replicate48_append (j : Nat) (l : List Nat) :
    digitsVal (List.replicate j 48 ++ l) = digitsVal l := by
  induction j with
  | zero => rfl
  | succ j ih =>
    rw [List.replicate_succ, List.cons_append, digitsVal_cons48]
    exact ih

theorem stripSign_natRepr (n : Nat) : stripSign (natRepr n) = (false, natRepr n) := by
  apply stripSign_of_no_sign
  · intro t ht
    have h43 : (43 : Nat) ∈ natRepr n := by rw [ht]; simp
    have := mem_natRepr n 43 h43
    omega
  · intro t ht
    have h45 : (45 : Nat) ∈ natRepr n := by rw [ht]; simp
    have := mem_natRepr n 45 h45
    omega

theorem parseExpSuffix_nil : parseExpSuffix [] = some 0 := rfl

theorem parseExpSuffix_e (e1 : Int) : parseExpSuffix (101 :: intReprExp e1) = some e1 := by
  rw [parseExpSuffix]
  rw [if_pos (Or.inl rfl)]
  rw [intReprExp]
  by_cases h0 : 0 ≤ e1
  · rw [if_pos h0]
    simp only [stripSign_natRepr, ne_eq, natRepr_ne_nil, not_false_eq_true,
      all_isDigit_natRepr, and_self, if_true, Bool.false_eq_true, if_false,
      digitsVal_natRepr, true_and]
    congr 1
    exact Int.toNat_of_nonneg h0
  · rw [if_neg h0]
    simp only [stripSign_minus, ne_eq, natRepr_ne_nil, not_false_eq_true,
      all_isDigit_natRepr, and_self, if_true, Bool.false_eq_true, if_false,
      digitsVal_natRepr, true_and]
    congr 1
    omega

theorem natDigits_head (m : Nat) (hm : m ≠ 0) :
    natDigits m = m % 10 :: Nat.digits 10 (m / 10) := by
  rw [natDigits_eq, Nat.digits_def' (by norm_num) (Nat.pos_of_ne_zero hm)]

theorem normDub_m0 (neg : Bool) (e0 : Int) : normDub neg 0 e0 = ⟨neg, 0, 0⟩ := by
  rw [normDub, if_pos rfl]

theorem normDub_canonical (neg : Bool) (m : Nat) (e : Int) (hm : m ≠ 0) (h10 : m % 10 ≠ 0) :
    normDub neg m e = ⟨neg, m, e⟩ := by
  rw [normDub, if_neg hm, natDigits_head m hm, List.takeWhile_cons, if_neg (by simp [h10])]
  simp only [List.length_nil, List.drop_zero]
  rw [← Nat.digits_def' (by norm_num : 1 < 10) (Nat.pos_of_ne_zero hm), Nat.ofDigits_digits]
  simp

theorem takeWhile_zero_replicate (k : Nat) (l : List Nat) (hl : l ≠ [] → l.headI ≠ 0) :
    (List.replicate k 0 ++ l).takeWhile (fun d => d == 0) = List.replicate k 0 := by
  induction k with
  | zero =>
    cases l with
    | nil => rfl
    | cons a t =>
      have ha : a ≠ 0 := by
        have := hl (by simp)
        simpa using this
      simp [List.takeWhile_cons, ha]
  | succ k ih =>
    rw [List.replicate_succ, List.cons_append, List.takeWhile_cons]
    simp only [beq_self_eq_true, if_true]
    rw [ih]

theorem normDub_mul_pow (neg : Bool) (m : Nat) (e0 : Int) (k : Nat)
    (hm : m ≠ 0) (h10 : m % 10 ≠ 0) :
    normDub neg (m * 10 ^ k) e0 = ⟨neg, m, e0 + k⟩ := by
  have hmp : 0 < m := Nat.pos_of_ne_zero hm
  have hne : m * 10 ^ k ≠ 0 := by positivity
  rw [normDub, if_neg hne]
  have hdig : natDigits (m * 10 ^ k) = List.replicate k 0 ++ Nat.digits 10 m := by
    rw [natDigits_eq, Nat.mul_comm, Nat.digits_base_pow_mul (by norm_num) hmp]
  rw [hdig]
  have hhead : Nat.digits 10 m ≠ [] → (Nat.digits 10 m).headI ≠ 0 := by
    intro _
    rw [Nat.digits_def' (by norm_num : 1 < 10) hmp]
    simpa using h10
  rw [takeWhile_zero_replicate k (Nat.digits 10 m) hhead]
  rw [List.length_replicate]
  have hdrop : (List.replicate k 0 ++ Nat.digits 10 m).drop k = Nat.digits 10 m := by
    have h2 := drop_append_add (List.replicate k 0) (Nat.digits 10 m) 0
    simpa using h2
  rw [hdrop, Nat.ofDigits_digits]

theorem parseF64Bytes_shape1 (neg : Bool) (ipart : List Nat) (ex : Int)
    (hne : ipart ≠ []) (hd : ∀ b ∈ ipart, isDigit b = true) :
    parseF64Bytes ((if neg then 45 else 43) :: ipart ++ 101 :: intReprExp ex) =
      some (normDub neg (digitsVal ipart) ex) := by
  have htw := takeWhile_digits_append ipart 101 (intReprExp ex) hd (by rfl)
  cases neg <;>
    rw [parseF64Bytes] <;>
    simp [stripSign_plus, stripSign_minus, htw.1, htw.2, hne, parseExpSuffix_e]

theorem parseF64Bytes_shape2 (neg : Bool) (ipart fpart : List Nat) (ex : Int)
    (hne : ipart ≠ []) (hd : ∀ b ∈ ipart, isDigit b = true)
    (hf : ∀ b ∈ fpart, isDigit b = true) :
    parseF64Bytes ((if neg then 45 else 43) :: ipart ++ 46 :: fpart ++ 101 :: intReprExp ex) =
      some (normDub neg (digitsVal (ipart ++ fpart)) (ex - fpart.length)) := by
  have htw := takeWhile_digits_append ipart 46 (fpart ++ 101 :: intReprExp ex) hd (by rfl)
  have htw2 := takeWhile_digits_append fpart 101 (intReprExp ex) hf (by rfl)
  cases neg <;>
    rw [parseF64Bytes] <;>
    simp [stripSign_plus, stripSign_minus, htw.1, htw.2, htw2.1, htw2.2, hne, parseExpSuffix_e]

theorem parseF64Bytes_shape3 (neg : Bool) (ipart : List Nat)
    (hne : ipart ≠ []) (hd : ∀ b ∈ ipart, isDigit b = true) :
    parseF64Bytes ((if neg then 45 else 43) :: ipart) =
      some (normDub neg (digitsVal ipart) 0) := by
  have htw := takeWhile_all_digits ipart hd
  cases neg <;>
    rw [parseF64Bytes] <;>
    simp [stripSign_plus, stripSign_minus, htw.1, htw.2, hne, parseExpSuffix_nil]

theorem parseF64Bytes_shape4 (neg : Bool) (ipart fpart : List Nat)
    (hne : ipart ≠ []) (hd : ∀ b ∈ ipart, isDigit b = true)
    (hf : ∀ b ∈ fpart, isDigit b = true) :
    parseF64Bytes ((if neg then 45 else 43) :: ipart ++ 46 :: fpart) =
      some (normDub neg (digitsVal (ipart ++ fpart)) (0 - (fpart.length : Int))) := by
  have htw := takeWhile_digits_append ipart 46 fpart hd (by rfl)
  have htw2 := takeWhile_all_digits fpart hf
  cases neg <;>
    rw [parseF64Bytes] <;>
    simp [stripSign_plus, stripSign_minus, htw.1, htw.2, htw2.1, htw2.2, hne, parseExpSuffix_nil]

theorem wfDub_spec (d : Dub) (hwf : wfDub d = true) :
    (d.m = 0 → d.e = 0) ∧ (d.m ≠ 0 → d.m % 10 ≠ 0) := by
  rw [wfDub] at hwf
  obtain ⟨h1, h2⟩ := Bool.and_eq_true_iff.mp hwf
  constructor
  · intro hm
    rcases Bool.or_eq_true_iff.mp h1 with h3 | h3
    · simp at h3; omega
    · simpa using h3
  · intro hm
    rcases Bool.or_eq_true_iff.mp h2 with h3 | h3
    · simp at h3; omega
    · simpa using h3

/-- Parsing the `{:+e}` output of a canonical double recovers it. -/
theorem parseF64Bytes_expBytes (d : Dub) (hwf : wfDub d = true) :
    parseF64Bytes (expBytes d) = some d := by
  obtain ⟨neg, m, e⟩ := d
  obtain ⟨hz, h10⟩ := wfDub_spec _ hwf
  simp only at hz h10
  by_cases hm : m = 0
  · subst hm
    have he : e = 0 := hz rfl
    subst he
    cases neg <;> rfl
  · have h10 := h10 hm
    rw [expBytes]
    simp only
    have hne : natRepr m ≠ [] := natRepr_ne_nil m
    by_cases hlen : (natRepr m).length ≤ 1
    · have htake : (natRepr m).take 1 = natRepr m := List.take_of_length_le hlen
      have hl1 : (natRepr m).length = 1 := by
        cases hnr : natRepr m with
        | nil => exact absurd hnr hne
        | cons a t =>
          rw [hnr] at hlen
          simp only [List.length_cons] at hlen ⊢
          omega
      rw [if_pos hlen, htake]
      have hshape := parseF64Bytes_shape1 neg (natRepr m) (e + ((natRepr m).length - 1 : Nat))
        hne (mem_natRepr_isDigit m)
      simp only [List.cons_append, List.append_assoc, List.append_nil,
        List.nil_append] at hshape
      try simp only [List.cons_append, List.append_assoc, List.append_nil, List.nil_append]
      rw [hshape, digitsVal_natRepr, hl1]
      simp only [Nat.sub_self, Nat.cast_zero, add_zero]
      rw [normDub_canonical neg m e hm h10]
    · rw [if_neg hlen]
      have htne : (natRepr m).take 1 ≠ [] := by
        cases hnr : natRepr m with
        | nil => exact absurd hnr hne
        | cons a t => simp
      have hshape := parseF64Bytes_shape2 neg ((natRepr m).take 1) ((natRepr m).drop 1)
        (e + ((natRepr m).length - 1 : Nat)) htne
        (fun b hb => mem_natRepr_isDigit m b (List.mem_of_mem_take hb))
        (fun b hb => mem_natRepr_isDigit m b (List.mem_of_mem_drop hb))
      simp only [List.cons_append, List.append_assoc, List.append_nil,
        List.nil_append] at hshape
      try simp only [List.cons_append, List.append_assoc, List.append_nil, List.nil_append]
      rw [hshape]
      have htd : (natRepr m).take 1 ++ (natRepr m).drop 1 = natRepr m := List.take_append_drop _ _
      rw [htd, digitsVal_natRepr]
      have hdl : ((natRepr m).drop 1).length = (natRepr m).length - 1 := by simp
      rw [hdl]
      have hee : e + ((natRepr m).length - 1 : Nat) - ((natRepr m).length - 1 : Nat) = e := by
        omega
      rw [hee, normDub_canonical neg m e hm h10]

theorem fixedBytes_eq (d : Dub) :
    fixedBytes d = (if d.neg then 45 else 43) :: posBytes d.m d.e := by
  cases hn : d.neg <;> simp [fixedBytes, displayBytes, hn]

/-- Parsing the fixed-point output of a canonical nonzero double recovers
it. -/
theorem parseF64Bytes_fixedBytes (d : Dub) (hwf : wfDub d = true) (hm : d.m ≠ 0) :
    parseF64Bytes (fixedBytes d) = some d := by
  obtain ⟨neg, m, e⟩ := d
  obtain ⟨hz, h10⟩ := wfDub_spec _ hwf
  simp only at hz h10 hm
  have h10 := h10 hm
  rw [fixedBytes_eq]
  simp only
  rw [posBytes]
  simp only
  by_cases h0 : (0 : Int) ≤ e
  · rw [if_pos h0]
    have hshape := parseF64Bytes_shape3 neg (natRepr m ++ List.replicate e.toNat 48)
      (by simp [natRepr_ne_nil m])
      (by
        intro b hb
        rcases List.mem_append.mp hb with hb1 | hb1
        · exact mem_natRepr_isDigit m b hb1
        · rw [List.eq_of_mem_replicate hb1]; rfl)
    rw [hshape, digitsVal_append_zeros, digitsVal_natRepr,
      normDub_mul_pow neg m 0 e.toNat hm h10]
    rw [zero_add, Int.toNat_of_nonneg h0]
  · rw [if_neg h0]
    by_cases hk : (-e).toNat < (natRepr m).length
    · rw [if_pos hk]
      have htne : (natRepr m).take ((natRepr m).length - (-e).toNat) ≠ [] := by
        have h1 : 1 ≤ (natRepr m).length - (-e).toNat := by omega
        cases hnr : ((natRepr m).take ((natRepr m).length - (-e).toNat)) with
        | nil =>
          have h2 := congrArg List.length hnr
          simp at h2
          omega
        | cons a t => simp
      have hshape := parseF64Bytes_shape4 neg
        ((natRepr m).take ((natRepr m).length - (-e).toNat))
        ((natRepr m).drop ((natRepr m).length - (-e).toNat)) htne
        (fun b hb => mem_natRepr_isDigit m b (List.mem_of_mem_take hb))
        (fun b hb => mem_natRepr_isDigit m b (List.mem_of_mem_drop hb))
      simp only [List.cons_append, List.append_assoc, List.append_nil,
        List.nil_append] at hshape
      try simp only [List.cons_append, List.append_assoc, List.append_nil, List.nil_append]
      rw [hshape]
      have htd := List.take_append_drop ((natRepr m).length - (-e).toNat) (natRepr m)
      rw [htd, digitsVal_natRepr]
      have hdl : ((natRepr m).drop ((natRepr m).length - (-e).toNat)).length = (-e).toNat := by
        simp
        omega
      rw [hdl, normDub_canonical neg m _ hm h10]
      have he2 : (0 : Int) - ((-e).toNat : Int) = e := by omega
      rw [he2]
    · rw [if_neg hk]
      have hshape := parseF64Bytes_shape4 neg [48]
        (List.replicate ((-e).toNat - (natRepr m).length) 48 ++ natRepr m)
        (by simp) (by intro b hb; simp at hb; subst hb; rfl)
        (by
          intro b hb
          rcases List.mem_append.mp hb with hb1 | hb1
          · rw [List.eq_of_mem_replicate hb1]; rfl
          · exact mem_natRepr_isDigit m b hb1)
      simp only [List.cons_append, List.append_assoc, List.append_nil, List.nil_append,
        List.singleton_append] at hshape
      try simp only [List.cons_append, List.append_assoc, List.append_nil, List.nil_append,
        List.singleton_append]
      rw [hshape]
      have hM : digitsVal (48 ::
          (List.replicate ((-e).toNat - (natRepr m).length) 48 ++ natRepr m)) = m := by
        rw [digitsVal_cons48, digitsVal_replicate48_append, digitsVal_natRepr]
      rw [hM]
      have hfl : ((List.replicate ((-e).toNat - (natRepr m).length) 48 ++ natRepr m)).length =
          (-e).toNat := by
        simp
        omega
      rw [hfl, normDub_canonical neg m _ hm h10]
      have he2 : (0 : Int) - ((-e).toNat : Int) = e := by omega
      rw [he2]

/-! ## Round trip support: bytes of the double payload -/

theorem mem_intReprExp (i : Int) (x : Nat) (hx : x ∈ intReprExp i) :
    x = 45 ∨ (48 ≤ x ∧ x ≤ 57) := by
  rw [intReprExp] at hx
  by_cases h0 : 0 ≤ i
  · rw [if_pos h0] at hx
    exact Or.inr (mem_natRepr _ x hx)
  · rw [if_neg h0] at hx
    rcases List.mem_cons.mp hx with rfl | hx2
    · exact Or.inl rfl
    · exact Or.inr (mem_natRepr _ x hx2)

theorem mem_expBytes (d : Dub) (x : Nat) (hx : x ∈ expBytes d) :
    x = 43 ∨ x = 45 ∨ x = 46 ∨ x = 101 ∨ (48 ≤ x ∧ x ≤ 57) := by
  simp only [expBytes, List.mem_cons, List.mem_append] at hx
  rcases hx with ((hx | hx) | hx) | rfl | hx
  · split_ifs at hx
    · exact Or.inr (Or.inl hx)
    · exact Or.inl hx
  · exact Or.inr (Or.inr (Or.inr (Or.inr (mem_natRepr _ x (List.mem_of_mem_take hx)))))
  · split_ifs at hx
    · simp at hx
    · rcases List.mem_cons.mp hx with rfl | hx2
      · exact Or.inr (Or.inr (Or.inl rfl))
      · exact Or.inr (Or.inr (Or.inr (Or.inr (mem_natRepr _ x (List.mem_of_mem_drop hx2)))))
  · exact Or.inr (Or.inr (Or.inr (Or.inl rfl)))
  · rcases mem_intReprExp _ x hx with rfl | hd
    · exact Or.inr (Or.inl rfl)
    · exact Or.inr (Or.inr (Or.inr (Or.inr hd)))

theorem mem_posBytes (m : Nat) (e : Int) (x : Nat) (hx : x ∈ posBytes m e) :
    x = 46 ∨ (48 ≤ x ∧ x ≤ 57) := by
  simp only [posBytes] at hx
  split_ifs at hx with h1 h2
  · rcases List.mem_append.mp hx with hx | hx
    · exact Or.inr (mem_natRepr _ x hx)
    · rw [List.eq_of_mem_replicate hx]
      exact Or.inr (by omega)
  · rcases List.mem_append.mp hx with hx | hx
    · exact Or.inr (mem_natRepr _ x (List.mem_of_mem_take hx))
    · rcases List.mem_cons.mp hx with rfl | hx2
      · exact Or.inl rfl
      · exact Or.inr (mem_natRepr _ x (List.mem_of_mem_drop hx2))
  · rcases List.mem_cons.mp hx with rfl | hx2
    · exact Or.inr (by omega)
    · rcases List.mem_cons.mp hx2 with rfl | hx3
      · exact Or.inl rfl
      · rcases List.mem_append.mp hx3 with hx4 | hx4
        · rw [List.eq_of_mem_replicate hx4]
          exact Or.inr (by omega)
        · exact Or.inr (mem_natRepr _ x hx4)

theorem mem_fixedBytes (d : Dub) (x : Nat) (hx : x ∈ fixedBytes d) :
    x = 43 ∨ x = 45 ∨ x = 46 ∨ (48 ≤ x ∧ x ≤ 57) := by
  simp only [fixedBytes, displayBytes, List.mem_append] at hx
  rcases hx with hx | hx | hx
  · split_ifs at hx
    · simp at hx
    · rcases List.mem_singleton.mp hx with rfl
      exact Or.inl rfl
  · split_ifs at hx
    · rcases List.mem_singleton.mp hx with rfl
      exact Or.inr (Or.inl rfl)
    · simp at hx
  · rcases mem_posBytes d.m d.e x hx with rfl | hd
    · exact Or.inr (Or.inr (Or.inl rfl))
    · exact Or.inr (Or.inr (Or.inr hd))

theorem mem_dubBytes (d : Dub) (x : Nat)
    (hx : x ∈ (if dubSci d then expBytes d else fixedBytes d)) : x < 128 ∧ x ≠ 13 := by
  split_ifs at hx
  · rcases mem_expBytes d x hx with rfl | rfl | rfl | rfl | h <;> omega
  · rcases mem_fixedBytes d x hx with rfl | rfl | rfl | h <;> omega

theorem hasCrlf_dubBytes (d : Dub) :
    hasCrlf (if dubSci d then expBytes d else fixedBytes d) = false :=
  hasCrlf_of_no13 (fun x hx => (mem_dubBytes d x hx).2)

theorem lossy_dubBytes (d : Dub) :
    fromUtf8Lossy (if dubSci d then expBytes d else fixedBytes d) =
      (if dubSci d then expBytes d else fixedBytes d) :=
  lossy_ascii _ (fun x hx => (mem_dubBytes d x hx).1)

theorem dubSci_zero (neg : Bool) : dubSci ⟨neg, 0, 0⟩ = true := by
  cases neg <;> decide

theorem dubSci_false_m (d : Dub) (hwf : wfDub d = true) (hs : dubSci d = false) : d.m ≠ 0 := by
  intro hm
  obtain ⟨neg, m, e⟩ := d
  simp only at hm
  subst hm
  obtain ⟨hz, _⟩ := wfDub_spec _ hwf
  have he := hz rfl
  simp only at he
  subst he
  rw [dubSci_zero] at hs
  exact absurd hs (by simp)

theorem parseF64_dubBytes (d : Dub) (hwf : wfDub d = true) :
    parseF64Bytes (if dubSci d then expBytes d else fixedBytes d) = some d := by
  by_cases h : dubSci d = true
  · rw [if_pos h]
    exact parseF64Bytes_expBytes d hwf
  · rw [if_neg h]
    exact parseF64Bytes_fixedBytes d hwf
      (dubSci_false_m d hwf (by revert h; cases dubSci d <;> simp))

/-! ## Round trip support: structural frame lemmas -/

theorem frameDepth_pos (f : Frame) : 1 ≤ frameDepth f := by
  cases f <;> simp [frameDepth]

theorem encode_len_ge3 (f : Frame) : 3 ≤ (frameEncode f).length := by
  cases f with
  | Boolean b => cases b <;> simp [frameEncode]
  | _ =>
    simp only [frameEncode, CRLF, List.length_cons, List.length_append, List.length_nil]
    omega

theorem frameDepth_le_of_mem : ∀ (xs : List Frame) (g : Frame), g ∈ xs →
    frameDepth g ≤ depthList xs
  | x :: t, g, hg => by
    rw [depthList]
    rcases List.mem_cons.mp hg with rfl | h2
    · exact Nat.le_max_left _ _
    · exact le_trans (frameDepth_le_of_mem t g h2) (Nat.le_max_right _ _)

theorem depthEntries_le_of_mem : ∀ (es : List (List Nat × Frame)) (e : List Nat × Frame),
    e ∈ es → frameDepth e.2 ≤ depthEntries es
  | (k, v) :: t, e, he => by
    rw [depthEntries]
    rcases List.mem_cons.mp he with rfl | h2
    · exact Nat.le_max_left _ _
    · exact le_trans (depthEntries_le_of_mem t e h2) (Nat.le_max_right _ _)

theorem wfList_mem : ∀ (xs : List Frame) (g : Frame), wfList xs = true → g ∈ xs →
    wfFrame g = true
  | x :: t, g, h, hg => by
    rw [wfList] at h
    obtain ⟨h1, h2⟩ := Bool.and_eq_true_iff.mp h
    rcases List.mem_cons.mp hg with rfl | hm
    · exact h1
    · exact wfList_mem t g h2 hm

theorem wfEntries_mem : ∀ (es : List (List Nat × Frame)) (e : List Nat × Frame),
    wfEntries es = true → e ∈ es →
    hasCrlf e.1 = false ∧ validUtf8 e.1 = true ∧ wfFrame e.2 = true
  | (k, v) :: t, e, h, he => by
    rw [wfEntries] at h
    simp only [Bool.and_eq_true, Bool.not_eq_true'] at h
    obtain ⟨⟨⟨h1, h2⟩, h3⟩, h4⟩ := h
    rcases List.mem_cons.mp he with rfl | hm
    · exact ⟨h1, h2, h3⟩
    · exact wfEntries_mem t e h4 hm

theorem innerOkList_mem : ∀ (xs : List Frame) (g : Frame), innerOkList xs = true → g ∈ xs →
    innerOk g = true
  | x :: t, g, h, hg => by
    rw [innerOkList] at h
    obtain ⟨h1, h2⟩ := Bool.and_eq_true_iff.mp h
    rcases List.mem_cons.mp hg with rfl | hm
    · exact h1
    · exact innerOkList_mem t g h2 hm

theorem innerOkEntries_mem : ∀ (es : List (List Nat × Frame)) (e : List Nat × Frame),
    innerOkEntries es = true → e ∈ es → innerOk e.2 = true
  | (k, v) :: t, e, h, he => by
    rw [innerOkEntries] at h
    obtain ⟨h1, h2⟩ := Bool.and_eq_true_iff.mp h
    rcases List.mem_cons.mp he with rfl | hm
    · exact h1
    · exact innerOkEntries_mem t e h2 hm

theorem emptyArrFreeList_mem : ∀ (xs : List Frame) (g : Frame), emptyArrFreeList xs = true →
    g ∈ xs → emptyArrFree g = true
  | x :: t, g, h, hg => by
    rw [emptyArrFreeList] at h
    obtain ⟨h1, h2⟩ := Bool.and_eq_true_iff.mp h
    rcases List.mem_cons.mp hg with rfl | hm
    · exact h1
    · exact emptyArrFreeList_mem t g h2 hm

theorem emptyArrFreeEntries_mem : ∀ (es : List (List Nat × Frame)) (e : List Nat × Frame),
    emptyArrFreeEntries es = true → e ∈ es → emptyArrFree e.2 = true
  | (k, v) :: t, e, h, he => by
    rw [emptyArrFreeEntries] at h
    obtain ⟨h1, h2⟩ := Bool.and_eq_true_iff.mp h
    rcases List.mem_cons.mp he with rfl | hm
    · exact h1
    · exact emptyArrFreeEntries_mem t e h2 hm

theorem depthList_le_encode (xs : List Frame)
    (h : ∀ g ∈ xs, frameDepth g ≤ (frameEncode g).length) :
    depthList xs ≤ (encodeList xs).length := by
  induction xs with
  | nil => simp [depthList, encodeList]
  | cons g gs ih =>
    rw [depthList, encodeList]
    have h1 := h g (by simp)
    have h2 := ih (fun g2 hg2 => h g2 (by simp [hg2]))
    simp only [List.length_append]
    exact max_le (by omega) (by omega)

theorem depthEntries_le_encode (es : List (List Nat × Frame))
    (h : ∀ e ∈ es, frameDepth e.2 ≤ (frameEncode e.2).length) :
    depthEntries es ≤ (encodeEntries es).length := by
  induction es with
  | nil => simp [depthEntries, encodeEntries]
  | cons e es ih =>
    obtain ⟨k, v⟩ := e
    rw [depthEntries, encodeEntries]
    have h1 := h (k, v) (by simp)
    have h2 := ih (fun e2 he2 => h e2 (by simp [he2]))
    simp only [List.length_cons, List.length_append, CRLF] at h1 h2 ⊢
    exact max_le (by omega) (by omega)

theorem encLen_le_entries : ∀ (es : List (List Nat × Frame)) (e : List Nat × Frame), e ∈ es →
    (frameEncode e.2).length ≤ (encodeEntries es).length
  | (k, v) :: t, e, he => by
    rw [encodeEntries]
    simp only [List.length_cons, List.length_append, CRLF, List.length_nil]
    rcases List.mem_cons.mp he with rfl | hm
    · have h2 : (frameEncode ((k, v) : List Nat × Frame).2).length = (frameEncode v).length := rfl
      omega
    · have := encLen_le_entries t e hm
      omega

theorem frameDepth_le_encode_aux : ∀ (n : Nat) (f : Frame), frameDepth f ≤ n →
    frameDepth f ≤ (frameEncode f).length := by
  intro n
  induction n with
  | zero =>
    intro f h
    have := frameDepth_pos f
    omega
  | succ m ih =>
    intro f h
    cases f with
    | Array xs =>
      simp only [frameDepth] at h ⊢
      have hd : depthList xs ≤ (encodeList xs).length :=
        depthList_le_encode xs (fun g hg => ih g (by have := frameDepth_le_of_mem xs g hg; omega))
      simp only [frameEncode, CRLF, List.length_cons, List.length_append]
      omega
    | Set xs =>
      simp only [frameDepth] at h ⊢
      have hd : depthList xs ≤ (encodeList xs).length :=
        depthList_le_encode xs (fun g hg => ih g (by have := frameDepth_le_of_mem xs g hg; omega))
      simp only [frameEncode, CRLF, List.length_cons, List.length_append]
      omega
    | Map es =>
      simp only [frameDepth] at h ⊢
      have hd : depthEntries es ≤ (encodeEntries es).length :=
        depthEntries_le_encode es
          (fun e he => ih e.2 (by have := depthEntries_le_of_mem es e he; omega))
      simp only [frameEncode, CRLF, List.length_cons, List.length_append]
      omega
    | SimpleString s =>
      have h3 := encode_len_ge3 (Frame.SimpleString s)
      simp only [frameDepth]
      omega
    | Error s =>
      have h3 := encode_len_ge3 (Frame.Error s)
      simp only [frameDepth]
      omega
    | Integer i =>
      have h3 := encode_len_ge3 (Frame.Integer i)
      simp only [frameDepth]
      omega
    | BulkString b =>
      have h3 := encode_len_ge3 (Frame.BulkString b)
      simp only [frameDepth]
      omega
    | Null =>
      have h3 := encode_len_ge3 Frame.Null
      simp only [frameDepth]
      omega
    | NullArray =>
      have h3 := encode_len_ge3 Frame.NullArray
      simp only [frameDepth]
      omega
    | NullBulkString =>
      have h3 := encode_len_ge3 Frame.NullBulkString
      simp only [frameDepth]
      omega
    | Boolean b =>
      have h3 := encode_len_ge3 (Frame.Boolean b)
      simp only [frameDepth]
      omega
    | Double d =>
      have h3 := encode_len_ge3 (Frame.Double d)
      simp only [frameDepth]
      omega

theorem frameDepth_le_encode (f : Frame) : frameDepth f ≤ (frameEncode f).length :=
  frameDepth_le_encode_aux (frameDepth f) f le_rfl

/-! ## Round trip support: measurement and consuming loops on encodings -/

theorem extend_self (lit r : List Nat) :
    extend_fixed_data (lit ++ r) lit = (.ok (), r) := by
  rw [extend_fixed_data]
  rw [if_neg (by simp [List.length_append])]
  rw [if_neg (by simp [List.isPrefixOf_iff_prefix])]
  rw [List.drop_left]

theorem calcListTotal_encode (el : List Nat → DRes Nat) :
    ∀ (xs : List Frame) (rest : List Nat) (total : Nat),
      (∀ g ∈ xs, ∀ r, el (frameEncode g ++ r) = .ok (frameEncode g).length) →
      calcListTotal el xs.length (encodeList xs ++ rest) total =
        .ok (total + (encodeList xs).length)
  | [], rest, total, _ => by simp [calcListTotal, encodeList]
  | g :: gs, rest, total, h => by
    rw [List.length_cons, calcListTotal]
    have hbuf : encodeList (g :: gs) ++ rest = frameEncode g ++ (encodeList gs ++ rest) := by
      rw [encodeList, List.append_assoc]
    rw [hbuf]
    simp only [h g (by simp) (encodeList gs ++ rest)]
    rw [if_pos (by simp only [List.length_append]; omega)]
    rw [List.drop_left]
    simp only [calcListTotal_encode el gs rest (total + (frameEncode g).length)
      (fun g2 hg2 r => h g2 (by simp [hg2]) r)]
    congr 1
    rw [encodeList, List.length_append]
    omega

theorem calcMapTotal_encode (el : List Nat → DRes Nat) :
    ∀ (es : List (List Nat × Frame)) (rest : List Nat) (total : Nat),
      (∀ e ∈ es, hasCrlf e.1 = false) →
      (∀ e ∈ es, ∀ r, el (frameEncode e.2 ++ r) = .ok (frameEncode e.2).length) →
      calcMapTotal el es.length (encodeEntries es ++ rest) total =
        .ok (total + (encodeEntries es).length)
  | [], rest, total, _, _ => by simp [calcMapTotal, encodeEntries]
  | (k, v) :: es, rest, total, hk, h => by
    rw [List.length_cons, calcMapTotal]
    have hbuf : encodeEntries ((k, v) :: es) ++ rest =
        43 :: k ++ 13 :: 10 :: (frameEncode v ++ (encodeEntries es ++ rest)) := by
      rw [encodeEntries]
      simp [CRLF, List.append_assoc]
    rw [hbuf]
    have hkk : hasCrlf k = false := hk (k, v) (by simp)
    rw [simpleExpectLen]
    simp only [extract_ok 43 k _ (by omega) hkk]
    rw [if_pos (by simp only [CRLF_LEN, List.length_cons, List.length_append]; omega)]
    have hdrop : (43 :: k ++ 13 :: 10 :: (frameEncode v ++ (encodeEntries es ++ rest))).drop
        (k.length + 1 + CRLF_LEN) = frameEncode v ++ (encodeEntries es ++ rest) := by
      have := drop_header 43 k (13 :: 10 :: (frameEncode v ++ (encodeEntries es ++ rest)))
      simp only [CRLF_LEN]
      rw [this]
      rfl
    rw [hdrop]
    have hv : ∀ r, el (frameEncode v ++ r) = .ok (frameEncode v).length := h (k, v) (by simp)
    simp only [hv (encodeEntries es ++ rest)]
    rw [if_pos (by simp [List.length_append])]
    rw [List.drop_left]
    simp only [calcMapTotal_encode el es rest
      (total + (k.length + 1 + CRLF_LEN) + (frameEncode v).length)
      (fun e2 he2 => hk e2 (by simp [he2])) (fun e2 he2 r => h e2 (by simp [he2]) r)]
    congr 1
    rw [encodeEntries]
    simp only [CRLF_LEN, CRLF, List.length_cons, List.length_append, List.length_nil]
    omega

theorem decodeElems_encode (dec : List Nat → DRes Frame × List Nat) :
    ∀ (xs : List Frame) (rest : List Nat),
      (∀ g ∈ xs, ∀ r, dec (frameEncode g ++ r) = (.ok g, r)) →
      decodeElems dec xs.length (encodeList xs ++ rest) = (.ok xs, rest)
  | [], rest, _ => by simp [decodeElems, encodeList]
  | g :: gs, rest, h => by
    rw [List.length_cons, decodeElems]
    have hbuf : encodeList (g :: gs) ++ rest = frameEncode g ++ (encodeList gs ++ rest) := by
      rw [encodeList, List.append_assoc]
    rw [hbuf]
    simp only [h g (by simp) (encodeList gs ++ rest)]
    simp only [decodeElems_encode dec gs rest (fun g2 hg2 r => h g2 (by simp [hg2]) r)]

theorem decodeMapEntries_encode (dec : List Nat → DRes Frame × List Nat) :
    ∀ (es acc : List (List Nat × Frame)) (rest : List Nat),
      (∀ e ∈ es, hasCrlf e.1 = false ∧ validUtf8 e.1 = true) →
      (∀ e ∈ es, ∀ r, dec (frameEncode e.2 ++ r) = (.ok e.2, r)) →
      decodeMapEntries dec es.length acc (encodeEntries es ++ rest) =
        (.ok (es.foldl (fun a kv => btInsert kv.1 kv.2 a) acc), rest)
  | [], acc, rest, _, _ => by simp [decodeMapEntries, encodeEntries]
  | (k, v) :: es, acc, rest, hk, h => by
    rw [List.length_cons, decodeMapEntries]
    have hbuf : encodeEntries ((k, v) :: es) ++ rest =
        43 :: k ++ 13 :: 10 :: (frameEncode v ++ (encodeEntries es ++ rest)) := by
      rw [encodeEntries]
      simp [CRLF, List.append_assoc]
    obtain ⟨hkc, hku⟩ := hk (k, v) (by simp)
    rw [hbuf]
    simp only [simpleStringDecode_ok 43 k _ (by omega) hkc, fromUtf8Lossy_of_valid k hku]
    have hv : ∀ r, dec (frameEncode v ++ r) = (.ok v, r) := h (k, v) (by simp)
    simp only [hv (encodeEntries es ++ rest)]
    simp only [decodeMapEntries_encode dec es (btInsert k v acc) rest
      (fun e2 he2 => hk e2 (by simp [he2])) (fun e2 he2 r => h e2 (by simp [he2]) r)]
    rw [List.foldl_cons]

/-! ## Round trip: the measurement pass on an encoding -/

/-- `RespFrame::expect_length` on the encoding of a well-formed frame with
no null-literal subframe measures exactly the encoding's length, for any
fuel at least the frame's nesting depth and any trailing bytes. -/
theorem expect_encode : ∀ (fuel : Nat), ∀ (f : Frame), frameDepth f ≤ fuel →
    wfFrame f = true → innerOk f = true →
    ∀ rest, frameExpectLen fuel (frameEncode f ++ rest) = .ok (frameEncode f).length := by
  intro fuel
  induction fuel with
  | zero =>
    intro f hdep
    have := frameDepth_pos f
    omega
  | succ F ih =>
    intro f hdep hwf hio rest
    cases f with
    | SimpleString s =>
      simp only [wfFrame, Bool.and_eq_true, Bool.not_eq_true'] at hwf
      have hshape : frameEncode (.SimpleString s) ++ rest = 43 :: s ++ 13 :: 10 :: rest := by
        simp [frameEncode, CRLF]
      rw [hshape, frameExpectLen.eq_def]
      norm_num
      rw [← List.cons_append]
      rw [simpleExpectLen]
      simp only [extract_ok 43 s rest (by omega) hwf.1]
      simp only [frameEncode, CRLF, CRLF_LEN, List.length_cons, List.length_append,
        List.length_nil]
      try (congr 1; omega)
    | Error s =>
      simp only [wfFrame, Bool.and_eq_true, Bool.not_eq_true'] at hwf
      have hshape : frameEncode (.Error s) ++ rest = 45 :: s ++ 13 :: 10 :: rest := by
        simp [frameEncode, CRLF]
      rw [hshape, frameExpectLen.eq_def]
      norm_num
      rw [← List.cons_append]
      rw [simpleExpectLen]
      simp only [extract_ok 45 s rest (by omega) hwf.1]
      simp only [frameEncode, CRLF, CRLF_LEN, List.length_cons, List.length_append,
        List.length_nil]
      try (congr 1; omega)
    | Integer i =>
      have hshape : frameEncode (.Integer i) ++ rest = 58 :: intReprPlus i ++ 13 :: 10 :: rest := by
        simp [frameEncode, CRLF]
      rw [hshape, frameExpectLen.eq_def]
      norm_num
      rw [← List.cons_append]
      rw [simpleExpectLen]
      simp only [extract_ok 58 (intReprPlus i) rest (by omega) (hasCrlf_intReprPlus i)]
      simp only [frameEncode, CRLF, CRLF_LEN, List.length_cons, List.length_append,
        List.length_nil]
      try (congr 1; omega)
    | Double d =>
      have hshape : frameEncode (.Double d) ++ rest =
          44 :: (if dubSci d then expBytes d else fixedBytes d) ++ 13 :: 10 :: rest := by
        simp [frameEncode, CRLF]
      rw [hshape, frameExpectLen.eq_def]
      norm_num
      rw [← List.cons_append]
      rw [simpleExpectLen]
      simp only [extract_ok 44 _ rest (by omega) (hasCrlf_dubBytes d)]
      simp only [frameEncode, CRLF, CRLF_LEN, List.length_cons, List.length_append,
        List.length_nil]
      try (congr 1; omega)
    | BulkString b =>
      have hshape : frameEncode (.BulkString b) ++ rest =
          36 :: natRepr b.length ++ 13 :: 10 :: (b ++ 13 :: 10 :: rest) := by
        simp [frameEncode, CRLF]
      rw [hshape, frameExpectLen.eq_def]
      norm_num
      rw [← List.cons_append]
      rw [bulkExpectLen]
      simp only [parse_length_repr 36 b.length (b ++ 13 :: 10 :: rest) (by omega)]
      simp only [frameEncode, CRLF, CRLF_LEN, List.length_cons, List.length_append,
        List.length_nil]
      try (congr 1; omega)
    | Null => rfl
    | NullArray => simp [innerOk] at hio
    | NullBulkString => simp [innerOk] at hio
    | Boolean b => cases b <;> rfl
    | Array xs =>
      simp only [wfFrame] at hwf
      simp only [innerOk] at hio
      simp only [frameDepth] at hdep
      have hshape : frameEncode (.Array xs) ++ rest =
          42 :: natRepr xs.length ++ 13 :: 10 :: (encodeList xs ++ rest) := by
        simp [frameEncode, CRLF]
      rw [hshape, frameExpectLen.eq_def]
      norm_num
      rw [← List.cons_append]
      rw [compositeExpectLen]
      simp only [parse_length_repr 42 xs.length (encodeList xs ++ rest) (by omega)]
      rw [calc_total_length, if_pos (Or.inl rfl)]
      have hdrop : (42 :: natRepr xs.length ++ 13 :: 10 :: (encodeList xs ++ rest)).drop
          ((natRepr xs.length).length + 1 + CRLF_LEN) = encodeList xs ++ rest := by
        have := drop_header 42 (natRepr xs.length) (13 :: 10 :: (encodeList xs ++ rest))
        simp only [CRLF_LEN]
        rw [this]
        rfl
      rw [hdrop]
      rw [calcListTotal_encode (frameExpectLen F) xs rest
        ((natRepr xs.length).length + 1 + CRLF_LEN)
        (fun g hg r => ih g (by have := frameDepth_le_of_mem xs g hg; omega)
          (wfList_mem xs g hwf hg) (innerOkList_mem xs g hio hg) r)]
      simp only [frameEncode, CRLF, CRLF_LEN, List.length_cons, List.length_append,
        List.length_nil]
      try (congr 1; omega)
    | Set xs =>
      simp only [wfFrame] at hwf
      simp only [innerOk] at hio
      simp only [frameDepth] at hdep
      have hshape : frameEncode (.Set xs) ++ rest =
          126 :: natRepr xs.length ++ 13 :: 10 :: (encodeList xs ++ rest) := by
        simp [frameEncode, CRLF]
      rw [hshape, frameExpectLen.eq_def]
      norm_num
      rw [← List.cons_append]
      rw [compositeExpectLen]
      simp only [parse_length_repr 126 xs.length (encodeList xs ++ rest) (by omega)]
      rw [calc_total_length, if_pos (Or.inr rfl)]
      have hdrop : (126 :: natRepr xs.length ++ 13 :: 10 :: (encodeList xs ++ rest)).drop
          ((natRepr xs.length).length + 1 + CRLF_LEN) = encodeList xs ++ rest := by
        have := drop_header 126 (natRepr xs.length) (13 :: 10 :: (encodeList xs ++ rest))
        simp only [CRLF_LEN]
        rw [this]
        rfl
      rw [hdrop]
      rw [calcListTotal_encode (frameExpectLen F) xs rest
        ((natRepr xs.length).length + 1 + CRLF_LEN)
        (fun g hg r => ih g (by have := frameDepth_le_of_mem xs g hg; omega)
          (wfList_mem xs g hwf hg) (innerOkList_mem xs g hio hg) r)]
      simp only [frameEncode, CRLF, CRLF_LEN, List.length_cons, List.length_append,
        List.length_nil]
      try (congr 1; omega)
    | Map es =>
      simp only [wfFrame, Bool.and_eq_true] at hwf
      simp only [innerOk] at hio
      simp only [frameDepth] at hdep
      have hshape : frameEncode (.Map es) ++ rest =
          37 :: natRepr es.length ++ 13 :: 10 :: (encodeEntries es ++ rest) := by
        simp [frameEncode, CRLF]
      rw [hshape, frameExpectLen.eq_def]
      norm_num
      rw [← List.cons_append]
      rw [compositeExpectLen]
      simp only [parse_length_repr 37 es.length (encodeEntries es ++ rest) (by omega)]
      rw [calc_total_length]
      rw [if_neg (by simp), if_pos rfl]
      have hdrop : (37 :: natRepr es.length ++ 13 :: 10 :: (encodeEntries es ++ rest)).drop
          ((natRepr es.length).length + 1 + CRLF_LEN) = encodeEntries es ++ rest := by
        have := drop_header 37 (natRepr es.length) (13 :: 10 :: (encodeEntries es ++ rest))
        simp only [CRLF_LEN]
        rw [this]
        rfl
      rw [hdrop]
      rw [calcMapTotal_encode (frameExpectLen F) es rest
        ((natRepr es.length).length + 1 + CRLF_LEN)
        (fun e he => (wfEntries_mem es e hwf.1 he).1)
        (fun e he r => ih e.2 (by have := depthEntries_le_of_mem es e he; omega)
          (wfEntries_mem es e hwf.1 he).2.2 (innerOkEntries_mem es e hio he) r)]
      simp only [frameEncode, CRLF, CRLF_LEN, List.length_cons, List.length_append,
        List.length_nil]
      try (congr 1; omega)

/-! ## Round trip: the consuming pass on an encoding -/

/-- `RespMap::decode` on a wire image built from any entry list (not
necessarily sorted or duplicate-free): the declared count is the list's
length and the result is the `BTreeMap` fold of the entries. -/
theorem mapDecode_wire (dec : List Nat → DRes Frame × List Nat) (el : List Nat → DRes Nat)
    (es : List (List Nat × Frame)) (rest : List Nat)
    (hk : ∀ e ∈ es, hasCrlf e.1 = false ∧ validUtf8 e.1 = true)
    (hel : ∀ e ∈ es, ∀ r, el (frameEncode e.2 ++ r) = .ok (frameEncode e.2).length)
    (hdec : ∀ e ∈ es, ∀ r, dec (frameEncode e.2 ++ r) = (.ok e.2, r)) :
    mapDecode dec el (37 :: natRepr es.length ++ 13 :: 10 :: (encodeEntries es ++ rest)) =
      (.ok (.Map (es.foldl (fun a kv => btInsert kv.1 kv.2 a) [])), rest) := by
  rw [mapDecode]
  simp only [parse_length_repr 37 es.length (encodeEntries es ++ rest) (by omega)]
  rw [calc_total_length, if_neg (by simp), if_pos rfl]
  have hdrop : (37 :: natRepr es.length ++ 13 :: 10 :: (encodeEntries es ++ rest)).drop
      ((natRepr es.length).length + 1 + CRLF_LEN) = encodeEntries es ++ rest := by
    have := drop_header 37 (natRepr es.length) (13 :: 10 :: (encodeEntries es ++ rest))
    simp only [CRLF_LEN]
    rw [this]
    rfl
  rw [hdrop]
  simp only [calcMapTotal_encode el es rest ((natRepr es.length).length + 1 + CRLF_LEN)
    (fun e he => (hk e he).1) hel]
  rw [if_neg (by
    simp only [CRLF_LEN, List.length_cons, List.length_append]
    omega)]
  simp only [decodeMapEntries_encode dec es [] rest hk hdec]

/-- `RespFrame::decode` inverts `RespEncoder::encode` on every well-formed
frame with no null-literal subframe and no empty-`Array` subframe, for any
fuel at least the frame's depth, consuming exactly the encoding. -/
theorem decode_encode : ∀ (fuel : Nat), ∀ (f : Frame), frameDepth f ≤ fuel →
    wfFrame f = true → innerOk f = true → emptyArrFree f = true →
    ∀ rest, frameDecode fuel (frameEncode f ++ rest) = (.ok f, rest) := by
  intro fuel
  induction fuel with
  | zero =>
    intro f hdep
    have := frameDepth_pos f
    omega
  | succ F ih =>
    intro f hdep hwf hio hea rest
    cases f with
    | SimpleString s =>
      simp only [wfFrame, Bool.and_eq_true, Bool.not_eq_true'] at hwf
      have hshape : frameEncode (.SimpleString s) ++ rest = 43 :: s ++ 13 :: 10 :: rest := by
        simp [frameEncode, CRLF]
      rw [hshape, frameDecode_simpleString F s rest hwf.1, fromUtf8Lossy_of_valid s hwf.2]
    | Error s =>
      simp only [wfFrame, Bool.and_eq_true, Bool.not_eq_true'] at hwf
      have hshape : frameEncode (.Error s) ++ rest = 45 :: s ++ 13 :: 10 :: rest := by
        simp [frameEncode, CRLF]
      rw [hshape, frameDecode_simpleError F s rest hwf.1, fromUtf8Lossy_of_valid s hwf.2]
    | Integer i =>
      simp only [wfFrame, decide_eq_true_eq] at hwf
      have hshape : frameEncode (.Integer i) ++ rest =
          58 :: intReprPlus i ++ 13 :: 10 :: rest := by
        simp [frameEncode, CRLF]
      have hi : i64Decode (58 :: intReprPlus i ++ 13 :: 10 :: rest) = (.ok i, rest) := by
        rw [i64Decode]
        simp only [extract_ok 58 (intReprPlus i) rest (by omega) (hasCrlf_intReprPlus i)]
        rw [take_header, lossy_intReprPlus, parseIntBytes_intReprPlus i hwf.1 hwf.2]
        have hdd := drop_header 58 (intReprPlus i) (13 :: 10 :: rest)
        simp only [CRLF_LEN]
        rw [hdd]
        rfl
      rw [hshape, frameDecode.eq_def]
      norm_num
      rw [← List.cons_append]
      simp only [hi]
    | Double d =>
      simp only [wfFrame] at hwf
      have hshape : frameEncode (.Double d) ++ rest =
          44 :: (if dubSci d then expBytes d else fixedBytes d) ++ 13 :: 10 :: rest := by
        simp [frameEncode, CRLF]
      have hdub : f64Decode (44 :: (if dubSci d then expBytes d else fixedBytes d) ++
          13 :: 10 :: rest) = (.ok d, rest) := by
        rw [f64Decode]
        simp only [extract_ok 44 _ rest (by omega) (hasCrlf_dubBytes d)]
        rw [take_header, lossy_dubBytes, parseF64_dubBytes d hwf]
        have hdd := drop_header 44 (if dubSci d then expBytes d else fixedBytes d) (13 :: 10 :: rest)
        simp only [CRLF_LEN]
        rw [hdd]
        rfl
      rw [hshape, frameDecode.eq_def]
      norm_num
      rw [← List.cons_append]
      simp only [hdub]
    | BulkString b =>
      have hshape : frameEncode (.BulkString b) ++ rest =
          36 :: natRepr b.length ++ 13 :: 10 :: (b ++ 13 :: 10 :: rest) := by
        simp [frameEncode, CRLF]
      rw [hshape, frameDecode_bulk F b.length (b ++ 13 :: 10 :: rest)
        (by simp only [List.length_cons, List.length_append]; omega)]
      rw [List.take_left]
      have hdd := drop_append_add b (13 :: 10 :: rest) 2
      rw [hdd]
      rfl
    | Null =>
      have hshape : frameEncode Frame.Null ++ rest = 95 :: 13 :: 10 :: rest := by
        simp [frameEncode]
      have hnull : extend_fixed_data (95 :: 13 :: 10 :: rest) [95, 13, 10] = (.ok (), rest) :=
        extend_self [95, 13, 10] rest
      rw [hshape, frameDecode.eq_def]
      norm_num
      simp only [hnull]
    | NullArray => simp [innerOk] at hio
    | NullBulkString => simp [innerOk] at hio
    | Boolean b =>
      cases b with
      | true =>
        have hshape : frameEncode (.Boolean true) ++ rest = 35 :: 116 :: 13 :: 10 :: rest := by
          simp [frameEncode]
        have ht : extend_fixed_data (35 :: 116 :: 13 :: 10 :: rest) [35, 116, 13, 10] =
            (.ok (), rest) := extend_self [35, 116, 13, 10] rest
        rw [hshape, frameDecode.eq_def]
        norm_num
        rw [boolDecode]
        simp only [ht]
      | false =>
        have hshape : frameEncode (.Boolean false) ++ rest = 35 :: 102 :: 13 :: 10 :: rest := by
          simp [frameEncode]
        have ht : extend_fixed_data (35 :: 102 :: 13 :: 10 :: rest) [35, 116, 13, 10] =
            (.err .InvalidFrameType, 35 :: 102 :: 13 :: 10 :: rest) :=
          extend_mismatch _ _ (by simp) (by simp [List.isPrefixOf])
        have hf : extend_fixed_data (35 :: 102 :: 13 :: 10 :: rest) [35, 102, 13, 10] =
            (.ok (), rest) := extend_self [35, 102, 13, 10] rest
        rw [hshape, frameDecode.eq_def]
        norm_num
        rw [boolDecode]
        simp only [ht, hf]
    | Array xs =>
      cases xs with
      | nil => simp [emptyArrFree] at hea
      | cons g gs =>
        simp only [wfFrame] at hwf
        simp only [innerOk] at hio
        simp only [emptyArrFree] at hea
        simp only [frameDepth] at hdep
        have hdec : ∀ x ∈ g :: gs, ∀ r, frameDecode F (frameEncode x ++ r) = (.ok x, r) :=
          fun x hx r => ih x
            (by have := frameDepth_le_of_mem (g :: gs) x hx; omega)
            (wfList_mem (g :: gs) x hwf hx) (innerOkList_mem (g :: gs) x hio hx)
            (emptyArrFreeList_mem (g :: gs) x hea hx) r
        have hel : ∀ x ∈ g :: gs, ∀ r,
            frameExpectLen F (frameEncode x ++ r) = .ok (frameEncode x).length :=
          fun x hx r => expect_encode F x
            (by have := frameDepth_le_of_mem (g :: gs) x hx; omega)
            (wfList_mem (g :: gs) x hwf hx) (innerOkList_mem (g :: gs) x hio hx) r
        have hshape : frameEncode (.Array (g :: gs)) ++ rest =
            42 :: natRepr (g :: gs).length ++ 13 :: 10 :: (encodeList (g :: gs) ++ rest) := by
          simp [frameEncode, CRLF]
        have hlit : extend_fixed_data
            (42 :: natRepr (g :: gs).length ++ 13 :: 10 :: (encodeList (g :: gs) ++ rest))
            [42, 45, 49, 13, 10] =
            (.err .InvalidFrameType,
              42 :: natRepr (g :: gs).length ++ 13 :: 10 :: (encodeList (g :: gs) ++ rest)) := by
          apply extend_mismatch
          · have h3 := encode_len_ge3 g
            have hre : encodeList (g :: gs) = frameEncode g ++ encodeList gs := by
              rw [encodeList]
            simp only [List.length_cons, List.length_append, List.length_nil, hre]
            omega
          · exact not_null_literal 42 (g :: gs).length (13 :: 10 :: (encodeList (g :: gs) ++ rest))
        have hdrop : (42 :: natRepr (g :: gs).length ++
            13 :: 10 :: (encodeList (g :: gs) ++ rest)).drop
            ((natRepr (g :: gs).length).length + 1 + CRLF_LEN) = encodeList (g :: gs) ++ rest := by
          have := drop_header 42 (natRepr (g :: gs).length)
            (13 :: 10 :: (encodeList (g :: gs) ++ rest))
          simp only [CRLF_LEN]
          rw [this]
          rfl
        rw [hshape, frameDecode.eq_def]
        norm_num
        rw [← List.cons_append]
        simp only [List.length_cons] at hlit hdrop
        simp only [hlit]
        rw [arrayDecode]
        have hpl := parse_length_repr 42 (g :: gs).length (encodeList (g :: gs) ++ rest)
          (by omega)
        simp only [List.length_cons] at hpl
        simp only [hpl]
        rw [calc_total_length, if_pos (Or.inl rfl)]
        rw [hdrop]
        have hct := calcListTotal_encode (frameExpectLen F) (g :: gs) rest
          ((natRepr (g :: gs).length).length + 1 + CRLF_LEN) hel
        simp only [List.length_cons] at hct
        simp only [hct]
        rw [if_neg (by
          simp only [CRLF_LEN, List.length_cons, List.length_append]
          omega)]
        have hde := decodeElems_encode (frameDecode F) (g :: gs) rest hdec
        simp only [List.length_cons] at hde
        simp only [hde]
    | Set xs =>
      simp only [wfFrame] at hwf
      simp only [innerOk] at hio
      simp only [emptyArrFree] at hea
      simp only [frameDepth] at hdep
      have hdec : ∀ x ∈ xs, ∀ r, frameDecode F (frameEncode x ++ r) = (.ok x, r) :=
        fun x hx r => ih x
          (by have := frameDepth_le_of_mem xs x hx; omega)
          (wfList_mem xs x hwf hx) (innerOkList_mem xs x hio hx)
          (emptyArrFreeList_mem xs x hea hx) r
      have hel : ∀ x ∈ xs, ∀ r,
          frameExpectLen F (frameEncode x ++ r) = .ok (frameEncode x).length :=
        fun x hx r => expect_encode F x
          (by have := frameDepth_le_of_mem xs x hx; omega)
          (wfList_mem xs x hwf hx) (innerOkList_mem xs x hio hx) r
      have hshape : frameEncode (.Set xs) ++ rest =
          126 :: natRepr xs.length ++ 13 :: 10 :: (encodeList xs ++ rest) := by
        simp [frameEncode, CRLF]
      have hdrop : (126 :: natRepr xs.length ++ 13 :: 10 :: (encodeList xs ++ rest)).drop
          ((natRepr xs.length).length + 1 + CRLF_LEN) = encodeList xs ++ rest := by
        have := drop_header 126 (natRepr xs.length) (13 :: 10 :: (encodeList xs ++ rest))
        simp only [CRLF_LEN]
        rw [this]
        rfl
      rw [hshape, frameDecode.eq_def]
      norm_num
      rw [← List.cons_append]
      rw [arrayDecode]
      simp only [parse_length_repr 126 xs.length (encodeList xs ++ rest) (by omega)]
      rw [calc_total_length, if_pos (Or.inr rfl)]
      rw [hdrop]
      simp only [calcListTotal_encode (frameExpectLen F) xs rest
        ((natRepr xs.length).length + 1 + CRLF_LEN) hel]
      rw [if_neg (by
        simp only [CRLF_LEN, List.length_cons, List.length_append]
        omega)]
      simp only [decodeElems_encode (frameDecode F) xs rest hdec]
    | Map es =>
      simp only [wfFrame, Bool.and_eq_true] at hwf
      simp only [innerOk] at hio
      simp only [emptyArrFree] at hea
      simp only [frameDepth] at hdep
      have hdec : ∀ e ∈ es, ∀ r, frameDecode F (frameEncode e.2 ++ r) = (.ok e.2, r) :=
        fun e he r => ih e.2
          (by have := depthEntries_le_of_mem es e he; omega)
          (wfEntries_mem es e hwf.1 he).2.2 (innerOkEntries_mem es e hio he)
          (emptyArrFreeEntries_mem es e hea he) r
      have hel : ∀ e ∈ es, ∀ r,
          frameExpectLen F (frameEncode e.2 ++ r) = .ok (frameEncode e.2).length :=
        fun e he r => expect_encode F e.2
          (by have := depthEntries_le_of_mem es e he; omega)
          (wfEntries_mem es e hwf.1 he).2.2 (innerOkEntries_mem es e hio he) r
      have hshape : frameEncode (.Map es) ++ rest =
          37 :: natRepr es.length ++ 13 :: 10 :: (encodeEntries es ++ rest) := by
        simp [frameEncode, CRLF]
      rw [hshape, frameDecode.eq_def]
      norm_num
      rw [← List.cons_append]
      rw [mapDecode_wire (frameDecode F) (frameExpectLen F) es rest
        (fun e he => ⟨(wfEntries_mem es e hwf.1 he).1, (wfEntries_mem es e hwf.1 he).2.1⟩)
        hel hdec]
      rw [foldl_btInsert_id es hwf.2]

/-! ## C2: decode inverts encode -/

/-- C2 counterexample: two constructible frames whose encodings do not
decode back to the frame.  The empty `Array` encodes to the four bytes
`*0\r\n`, which fail the five-byte length guard of the `*-1\r\n` literal
probe, so decode reports `NotComplete` on a complete frame; an `Array`
holding the `NullBulkString` literal makes the measurement pass feed `-1`
to `str::parse::<usize>`, so decode fails with `ParseIntError`. -/
theorem c2_roundtrip_cex :
    frameEncode (.Array []) = [42, 48, 13, 10] ∧
    decode [42, 48, 13, 10] = (.err .NotComplete, [42, 48, 13, 10]) ∧
    frameEncode (.Array [.NullBulkString]) = [42, 49, 13, 10, 36, 45, 49, 13, 10] ∧
    decode [42, 49, 13, 10, 36, 45, 49, 13, 10] =
      (.err .ParseIntError, [42, 49, 13, 10, 36, 45, 49, 13, 10]) :=
  ⟨rfl, rfl, rfl, rfl⟩

/-- C2 (amended): `decode (encode f) = (f, [])` — the whole encoding is
consumed and the frame (with `Map` in its canonical ascending-key
`BTreeMap` form) comes back exactly — for every well-formed frame that has
no `NullArray`/`NullBulkString` subframe inside a composite and no
`Array []` subframe. -/
theorem c2_roundtrip (f : Frame) (hwf : wfFrame f = true)
    (hio : decodableTop f = true) (hea : emptyArrFree f = true) :
    decode (frameEncode f) = (.ok f, []) := by
  have hgen : ∀ (g : Frame), wfFrame g = true → innerOk g = true → emptyArrFree g = true →
      decode (frameEncode g) = (.ok g, []) := by
    intro g h1 h2 h3
    rw [decode]
    have := decode_encode ((frameEncode g).length + 1) g
      (by have := frameDepth_le_encode g; omega) h1 h2 h3 []
    simpa using this
  cases f with
  | NullArray => rfl
  | NullBulkString => rfl
  | Array xs => exact hgen _ hwf (by simpa [innerOk, decodableTop] using hio) hea
  | Map es => exact hgen _ hwf (by simpa [innerOk, decodableTop] using hio) hea
  | Set xs => exact hgen _ hwf (by simpa [innerOk, decodableTop] using hio) hea
  | SimpleString s => exact hgen _ hwf rfl hea
  | Error s => exact hgen _ hwf rfl hea
  | Integer i => exact hgen _ hwf rfl hea
  | BulkString b => exact hgen _ hwf rfl hea
  | Null => exact hgen _ hwf rfl hea
  | Boolean b => exact hgen _ hwf rfl hea
  | Double d => exact hgen _ hwf rfl hea

/-- Witness for C2: a nested Map/Array/Integer/SimpleString/Boolean frame
round-trips through the codec. -/
theorem c2_roundtrip_witness :
    wfFrame (.Map [([97], .Array [.Integer (-5), .SimpleString [111, 107]]),
      ([98], .Boolean true)]) = true ∧
    decodableTop (.Map [([97], .Array [.Integer (-5), .SimpleString [111, 107]]),
      ([98], .Boolean true)]) = true ∧
    emptyArrFree (.Map [([97], .Array [.Integer (-5), .SimpleString [111, 107]]),
      ([98], .Boolean true)]) = true ∧
    decode (frameEncode (.Map [([97], .Array [.Integer (-5), .SimpleString [111, 107]]),
      ([98], .Boolean true)])) =
      (.ok (.Map [([97], .Array [.Integer (-5), .SimpleString [111, 107]]),
        ([98], .Boolean true)]), []) :=
  ⟨by decide, by decide, by decide, c2_roundtrip _ (by decide) (by decide) (by decide)⟩

/-! ## C8: declared counts versus actual counts -/

theorem foldl_btInsert_length : ∀ (es acc : List (List Nat × Frame)),
    (es.map Prod.fst).Nodup → (∀ e ∈ es, e.1 ∉ acc.map Prod.fst) →
    (es.foldl (fun a kv => btInsert kv.1 kv.2 a) acc).length = acc.length + es.length
  | [], acc, _, _ => by simp
  | (k, v) :: es, acc, hnd, hdisj => by
    simp only [List.foldl_cons]
    rw [List.map_cons, List.nodup_cons] at hnd
    have hlen := length_btInsert_of_not_mem k v acc (hdisj (k, v) (by simp))
    have hrec := foldl_btInsert_length es (btInsert k v acc) hnd.2 (by
      intro e he hmem
      rcases List.mem_map.mp hmem with ⟨kv, hkv, hfst⟩
      rcases mem_of_mem_btInsert k v kv acc hkv with rfl | h2
      · exact hnd.1 (by
          rw [show k = e.1 from hfst]
          exact List.mem_map.mpr ⟨e, he, rfl⟩)
      · exact hdisj e (by simp [he]) (by
          rw [← hfst]
          exact List.mem_map.mpr ⟨kv, h2, rfl⟩))
    rw [hrec, hlen]
    simp only [List.length_cons]
    omega

/-- Top-level decode of a complete Map wire image built from an arbitrary
entry list (any key order, duplicates allowed), with any fuel at least the
body length: the result is the `BTreeMap` fold of the entries. -/
theorem c8_wire_aux (fuel : Nat) (es : List (List Nat × Frame))
    (hfuel : (encodeEntries es).length ≤ fuel)
    (hk : ∀ e ∈ es, hasCrlf e.1 = false ∧ validUtf8 e.1 = true)
    (hv : ∀ e ∈ es, wfFrame e.2 = true ∧ innerOk e.2 = true ∧ emptyArrFree e.2 = true) :
    frameDecode (fuel + 1) (37 :: natRepr es.length ++ 13 :: 10 :: encodeEntries es) =
      (.ok (.Map (es.foldl (fun a kv => btInsert kv.1 kv.2 a) [])), []) := by
  have hdep : ∀ e ∈ es, frameDepth e.2 ≤ fuel := by
    intro e he
    have h1 := frameDepth_le_encode e.2
    have h2 := encLen_le_entries es e he
    omega
  have hdec : ∀ e ∈ es, ∀ r, frameDecode fuel (frameEncode e.2 ++ r) = (.ok e.2, r) :=
    fun e he r => decode_encode fuel e.2 (hdep e he) (hv e he).1 (hv e he).2.1 (hv e he).2.2 r
  have hel : ∀ e ∈ es, ∀ r,
      frameExpectLen fuel (frameEncode e.2 ++ r) = .ok (frameEncode e.2).length :=
    fun e he r => expect_encode fuel e.2 (hdep e he) (hv e he).1 (hv e he).2.1 r
  have hw := mapDecode_wire (frameDecode fuel) (frameExpectLen fuel) es [] hk hel hdec
  simp only [List.append_nil] at hw
  rw [frameDecode.eq_def]
  norm_num
  rw [← List.cons_append]
  rw [hw]

/-- C8 counterexample: the complete Map wire image
`%2\r\n+k\r\n:+1\r\n+k\r\n:+2\r\n` declares 2 entries, but the decoded
Map frame holds exactly 1 entry (the second `k` insertion replaces the
first in the `BTreeMap`). -/
theorem c8_dup_key_cex :
    decode [37, 50, 13, 10, 43, 107, 13, 10, 58, 43, 49, 13, 10,
      43, 107, 13, 10, 58, 43, 50, 13, 10] =
      (.ok (.Map [([107], .Integer 2)]), []) ∧
    ([([107], Frame.Integer 2)] : List (List Nat × Frame)).length ≠ 2 :=
  ⟨rfl, by decide⟩

/-- C8 (amended): for every buffer holding a complete Map encoding that
declares `n` entries with pairwise-distinct (CRLF-free, UTF-8) keys and
decodable values, the decoded Map frame contains exactly `n` entries.  (On
the encode side the declared counts are the actual counts by construction:
`frameEncode` emits `xs.length` / `es.length` / `b.length` itself.) -/
theorem c8_map_declared_count (es : List (List Nat × Frame))
    (hnd : (es.map Prod.fst).Nodup)
    (hk : ∀ e ∈ es, hasCrlf e.1 = false ∧ validUtf8 e.1 = true)
    (hv : ∀ e ∈ es, wfFrame e.2 = true ∧ innerOk e.2 = true ∧ emptyArrFree e.2 = true) :
    ∃ ds, decode (37 :: natRepr es.length ++ 13 :: 10 :: encodeEntries es) =
      (.ok (.Map ds), []) ∧ ds.length = es.length := by
  refine ⟨es.foldl (fun a kv => btInsert kv.1 kv.2 a) [], ?_, ?_⟩
  · rw [decode]
    exact c8_wire_aux _ es
      (by simp only [List.length_cons, List.length_append]; omega) hk hv
  · have := foldl_btInsert_length es [] hnd (by simp)
    simpa using this

/-- Witness for C8: a two-entry wire image with distinct keys `k`, `j`
given in descending order decodes to a Map with exactly two entries. -/
theorem c8_map_count_witness :
    ∃ ds, decode (37 :: natRepr
        ([([107], Frame.Integer 1), ([106], Frame.Integer 2)]).length ++ 13 :: 10 ::
        encodeEntries [([107], Frame.Integer 1), ([106], Frame.Integer 2)]) =
      (.ok (.Map ds), []) ∧
      ds.length = ([([107], Frame.Integer 1), ([106], Frame.Integer 2)]).length :=
  c8_map_declared_count [([107], .Integer 1), ([106], .Integer 2)]
    (by decide) (by decide) (by decide)

end SimpleRedis
